import Mathlib

/-!
Verification of the philtographer dependency-graph engine.

The Go sources are embedded shallowly: the graph store (package `graph`),
the import filters and legacy resolver (package `scan`), the tsconfig
resolver's file probing, the JSX component resolver (package `tsgraph`),
and the entry-driven worklist builders.  File-system access is modelled by
an explicit `FS` value; the concurrent worklist protocol is modelled as a
sequential queue (the graph is commutative under edge insertion, so the
final contents do not depend on interleaving).
-/

set_option maxRecDepth 4000

namespace Philtographer

/-! ## String helpers (Go `strings` / `path/filepath` on slash paths) -/

/-- Boolean test that `pre` is a prefix of `s` (Go `strings.HasPrefix`). -/
def strHasPref (s pre : String) : Bool :=
  List.isPrefixOf pre.data s.data

/-- Boolean test that `suf` is a suffix of `s` (Go `strings.HasSuffix`). -/
def strHasSuf (s suf : String) : Bool :=
  List.isPrefixOf suf.data.reverse s.data.reverse

/-- Lower-casing a string character by character (Go `strings.ToLower`). -/
def strToLower (s : String) : String :=
  ⟨s.data.map Char.toLower⟩

/-- Containment of a single character (Go `strings.Contains` with a
one-character needle). -/
def strHasChar (s : String) (c : Char) : Bool :=
  s.data.contains c

/-- Split a character list at every occurrence of `c`
(Go `strings.Split`). -/
def splitOnChar (c : Char) : List Char → List (List Char)
  | [] => [[]]
  | x :: rest =>
    let r := splitOnChar c rest
    if x = c then [] :: r
    else
      match r with
      | h :: t => (x :: h) :: t
      | [] => [[x]]

/-- Interleave a separator character between the pieces
(Go `strings.Join`). -/
def joinWithChar (c : Char) : List (List Char) → List Char
  | [] => []
  | [p] => p
  | p :: rest => p ++ c :: joinWithChar c rest

/-- Slash components of a path. -/
def pathParts (p : String) : List (List Char) :=
  splitOnChar '/' p.data

/-- Rootedness test (Go `filepath.IsAbs` for slash paths). -/
def isAbsGo (p : String) : Bool :=
  strHasPref p "/"

/-- The `..`/`.`-elimination pass of Go `path.Clean`: fold the components,
dropping empty and `.` parts and letting `..` pop a previous component (or
vanish at the root of a rooted path). -/
def cleanParts (rooted : Bool) (parts : List (List Char)) : List (List Char) :=
  (parts.foldl (fun acc part =>
    if part = [] ∨ part = ['.'] then acc
    else if part = ['.', '.'] then
      match acc with
      | [] => if rooted then [] else [['.', '.']]
      | h :: t => if h = ['.', '.'] then part :: acc else t
    else part :: acc) []).reverse

/-- Go `filepath.Clean` for forward-slash paths. -/
def cleanGo (p : String) : String :=
  if p = "" then "." else
  let rooted := isAbsGo p
  let parts := cleanParts rooted (pathParts p)
  let s : List Char := joinWithChar '/' parts
  if rooted then ⟨'/' :: s⟩
  else if s = [] then "." else ⟨s⟩

/-- Go `filepath.Join` of two elements: concatenate with a slash (empty
elements dropped) and clean the result. -/
def joinGo (a b : String) : String :=
  if a = "" then
    if b = "" then "" else cleanGo b
  else if b = "" then cleanGo a
  else cleanGo ⟨a.data ++ '/' :: b.data⟩

/-- Go `filepath.Dir`: everything up to the final slash, cleaned; `.` when
there is no slash. -/
def dirGo (p : String) : String :=
  match (pathParts p).dropLast with
  | [] => "."
  | parts => cleanGo ⟨joinWithChar '/' parts ++ ['/']⟩

/-- Go `filepath.Ext`: the suffix of the last component from its final
dot; empty when the last component has no dot. -/
def extGo (p : String) : String :=
  match (pathParts p).getLast? with
  | none => ""
  | some last =>
    match (splitOnChar '.' last).dropLast with
    | [] => ""
    | _ =>
      match (splitOnChar '.' last).getLast? with
      | none => ""
      | some e => ⟨'.' :: e⟩

/-- Lexicographic character order used to model Go `sort.Strings`. -/
def lexLt : List Char → List Char → Bool
  | [], [] => false
  | [], _ :: _ => true
  | _ :: _, [] => false
  | a :: as, b :: bs =>
    if a.val < b.val then true
    else if b.val < a.val then false
    else lexLt as bs

/-- String order for sorting node lists. -/
def strLtGo (a b : String) : Bool :=
  lexLt a.data b.data

/-- Ordered insertion for the sort. -/
def insertSorted (x : String) : List String → List String
  | [] => [x]
  | y :: ys => if strLtGo x y then x :: y :: ys else y :: insertSorted x ys

/-- Ascending sort of a string list (Go `sort.Strings`). -/
def sortStrings (l : List String) : List String :=
  l.foldr insertSorted []

theorem mem_insertSorted (a x : String) (l : List String) :
    a ∈ insertSorted x l ↔ a = x ∨ a ∈ l := by
  induction l with
  | nil => simp [insertSorted]
  | cons y ys ih =>
    by_cases h : strLtGo x y = true
    · simp [insertSorted, h]
    · rw [insertSorted, if_neg h]
      simp only [List.mem_cons, ih]
      tauto

theorem mem_sortStrings (a : String) (l : List String) :
    a ∈ sortStrings l ↔ a ∈ l := by
  induction l with
  | nil => simp [sortStrings]
  | cons x xs ih =>
    simp only [sortStrings, List.foldr_cons] at ih ⊢
    rw [mem_insertSorted, ih, List.mem_cons]


/-! ## Graph store (package `graph`)

`map[string]map[string]struct{}` is modelled as an association list from
node to its adjacency set (a duplicate-free list). -/

/-- Adjacency mapping: node identifier to set of neighbours. -/
def Adjacency : Type := List (String × List String)

/-- Lookup of a key in an adjacency mapping (Go map indexing with the
`ok` flag). -/
def lookupAdj : Adjacency → String → Option (List String)
  | [], _ => none
  | (k, v) :: rest, key => if k = key then some v else lookupAdj rest key

/-- Insertion into a Go set `map[string]struct{}`. -/
def setInsert (s : List String) (x : String) : List String :=
  if x ∈ s then s else s ++ [x]

/-- Ensure key `k` exists and holds `v` in its set
(`m[k][v] = struct{}{}` with lazy initialisation of `m[k]`). -/
def addToKey : Adjacency → String → String → Adjacency
  | [], k, v => [(k, [v])]
  | (k', s) :: rest, k, v =>
    if k' = k then (k', setInsert s v) :: rest
    else (k', s) :: addToKey rest k v

/-- Ensure key `k` exists with an (initially empty) set. -/
def ensureKey : Adjacency → String → Adjacency
  | [], k => [(k, [])]
  | (k', s) :: rest, k =>
    if k' = k then (k', s) :: rest
    else (k', s) :: ensureKey rest k

/-- The graph store: forward adjacency `edges` and reverse adjacency
`reverse`, exactly the two maps of `graph.Graph`. -/
structure Graph where
  edges : Adjacency
  reverse : Adjacency

/-- `graph.New()`. -/
def Graph.new : Graph := ⟨[], []⟩

/-- `(*Graph).AddEdge`: no-op on empty endpoints or self-loops, otherwise
insert `dst` into `edges[frm]` and `frm` into `reverse[dst]`. -/
def Graph.AddEdge (g : Graph) (frm dst : String) : Graph :=
  if frm = "" ∨ dst = "" ∨ frm = dst then g
  else { edges := addToKey g.edges frm dst, reverse := addToKey g.reverse dst frm }

/-- `(*Graph).Touch`: ensure `n` is a key of both maps. -/
def Graph.Touch (g : Graph) (n : String) : Graph :=
  if n = "" then g
  else { edges := ensureKey g.edges n, reverse := ensureKey g.reverse n }

/-- Key list of an adjacency mapping. -/
def adjKeys (m : Adjacency) : List String := m.map Prod.fst

/-- `(*Graph).Nodes`: sorted union of the key sets of both maps. -/
def Graph.Nodes (g : Graph) : List String :=
  sortStrings ((adjKeys g.edges ++ adjKeys g.reverse).dedup)

/-- Membership of `b` in the set stored under `a` (an absent key holds the
empty set). -/
def adjMem (m : Adjacency) (a b : String) : Prop :=
  b ∈ (lookupAdj m a).getD []

instance (m : Adjacency) (a b : String) : Decidable (adjMem m a b) := by
  unfold adjMem; infer_instance

/-- A single graph-store operation. -/
inductive Op where
  | addEdge (frm dst : String)
  | touch (n : String)

/-- Apply one operation. -/
def applyOp (g : Graph) : Op → Graph
  | .addEdge frm dst => g.AddEdge frm dst
  | .touch n => g.Touch n

/-- Run a sequence of operations from the empty graph. -/
def runOps (ops : List Op) : Graph :=
  ops.foldl applyOp Graph.new

/-! ### Map lemmas -/

theorem lookupAdj_addToKey (m : Adjacency) (k v k' : String) :
    lookupAdj (addToKey m k v) k' =
      if k' = k then some (setInsert ((lookupAdj m k).getD []) v)
      else lookupAdj m k' := by
  induction m with
  | nil =>
    by_cases h : k' = k
    · subst h; simp [addToKey, lookupAdj, setInsert]
    · simp [addToKey, lookupAdj, h, Ne.symm h]
  | cons hd tl ih =>
    obtain ⟨k₀, s₀⟩ := hd
    by_cases h0 : k₀ = k
    · subst h0
      by_cases h : k' = k₀
      · subst h; simp [addToKey, lookupAdj]
      · simp [addToKey, lookupAdj, h, Ne.symm h]
    · by_cases h : k' = k₀
      · subst h
        simp [addToKey, h0, lookupAdj, Ne.symm h0]
      · simp [addToKey, h0, lookupAdj, h, Ne.symm h, ih]

theorem lookupAdj_ensureKey (m : Adjacency) (k k' : String) :
    lookupAdj (ensureKey m k) k' =
      if k' = k then some ((lookupAdj m k).getD [])
      else lookupAdj m k' := by
  induction m with
  | nil =>
    by_cases h : k' = k
    · subst h; simp [ensureKey, lookupAdj]
    · simp [ensureKey, lookupAdj, h, Ne.symm h]
  | cons hd tl ih =>
    obtain ⟨k₀, s₀⟩ := hd
    by_cases h0 : k₀ = k
    · subst h0
      by_cases h : k' = k₀
      · subst h; simp [ensureKey, lookupAdj]
      · simp [ensureKey, lookupAdj, h, Ne.symm h]
    · by_cases h : k' = k₀
      · subst h
        simp [ensureKey, h0, lookupAdj, Ne.symm h0]
      · simp [ensureKey, h0, lookupAdj, h, Ne.symm h, ih]

theorem mem_setInsert (x v : String) (s : List String) :
    x ∈ setInsert s v ↔ x ∈ s ∨ x = v := by
  unfold setInsert
  by_cases h : v ∈ s
  · simp only [h, if_true]
    constructor
    · exact Or.inl
    · rintro (hx | rfl) <;> [exact hx; exact h]
  · simp [h]

theorem adjMem_addToKey (m : Adjacency) (k v a b : String) :
    adjMem (addToKey m k v) a b ↔ (a = k ∧ b = v) ∨ adjMem m a b := by
  unfold adjMem
  rw [lookupAdj_addToKey]
  by_cases h : a = k
  · subst h
    simp [mem_setInsert]
    tauto
  · simp [h]

theorem adjMem_ensureKey (m : Adjacency) (k a b : String) :
    adjMem (ensureKey m k) a b ↔ adjMem m a b := by
  unfold adjMem
  rw [lookupAdj_ensureKey]
  by_cases h : a = k
  · subst h; simp
  · simp [h]

theorem mem_adjKeys_addToKey (m : Adjacency) (k v x : String) :
    x ∈ adjKeys (addToKey m k v) ↔ x ∈ adjKeys m ∨ x = k := by
  induction m with
  | nil => simp [addToKey, adjKeys]
  | cons hd tl ih =>
    obtain ⟨k₀, s₀⟩ := hd
    by_cases h0 : k₀ = k
    · subst h0
      simp [addToKey, adjKeys]
      tauto
    · simp only [addToKey, h0, if_false, adjKeys, List.map_cons, List.mem_cons] at ih ⊢
      rw [ih]
      tauto

theorem mem_adjKeys_ensureKey (m : Adjacency) (k x : String) :
    x ∈ adjKeys (ensureKey m k) ↔ x ∈ adjKeys m ∨ x = k := by
  induction m with
  | nil => simp [ensureKey, adjKeys]
  | cons hd tl ih =>
    obtain ⟨k₀, s₀⟩ := hd
    by_cases h0 : k₀ = k
    · subst h0
      simp [ensureKey, adjKeys]
      tauto
    · simp only [ensureKey, h0, if_false, adjKeys, List.map_cons, List.mem_cons] at ih ⊢
      rw [ih]
      tauto

theorem adjMem_mem_adjKeys {m : Adjacency} {a b : String} (h : adjMem m a b) :
    a ∈ adjKeys m := by
  unfold adjMem at h
  induction m with
  | nil => simp [lookupAdj] at h
  | cons hd tl ih =>
    obtain ⟨k₀, s₀⟩ := hd
    by_cases hk : k₀ = a
    · subst hk; simp [adjKeys]
    · rw [lookupAdj, if_neg hk] at h
      simp only [adjKeys, List.map_cons, List.mem_cons]
      exact Or.inr (ih h)

theorem mem_nodes_iff (g : Graph) (x : String) :
    x ∈ g.Nodes ↔ x ∈ adjKeys g.edges ∨ x ∈ adjKeys g.reverse := by
  unfold Graph.Nodes
  rw [mem_sortStrings, List.mem_dedup, List.mem_append]

/-! ### Invariants preserved by operation sequences -/

/-- Generic preservation of a predicate along a run of operations. -/
theorem runOps_inv {P : Graph → Prop} (h0 : P Graph.new)
    (hstep : ∀ g op, P g → P (applyOp g op)) (ops : List Op) :
    P (runOps ops) := by
  suffices h : ∀ (l : List Op) (g : Graph), P g → P (l.foldl applyOp g) by
    exact h ops Graph.new h0
  intro l
  induction l with
  | nil => intro g hg; exact hg
  | cons op rest ih =>
    intro g hg
    exact ih _ (hstep g op hg)

/-- The mirror property of a graph value. -/
def Mirror (g : Graph) : Prop :=
  ∀ a b, adjMem g.edges a b ↔ adjMem g.reverse b a

theorem mirror_new : Mirror Graph.new := by
  intro a b
  simp [Graph.new, adjMem, lookupAdj]

theorem mirror_applyOp (g : Graph) (op : Op) (h : Mirror g) :
    Mirror (applyOp g op) := by
  cases op with
  | addEdge frm dst =>
    by_cases hguard : frm = "" ∨ dst = "" ∨ frm = dst
    · simpa [applyOp, Graph.AddEdge, hguard] using h
    · intro a b
      simp only [applyOp, Graph.AddEdge, hguard, if_false]
      rw [adjMem_addToKey, adjMem_addToKey, h a b]
      tauto
  | touch n =>
    by_cases hn : n = ""
    · simpa [applyOp, Graph.Touch, hn] using h
    · intro a b
      simp only [applyOp, Graph.Touch, hn, if_false]
      rw [adjMem_ensureKey, adjMem_ensureKey]
      exact h a b

theorem mirror_runOps (ops : List Op) : Mirror (runOps ops) :=
  runOps_inv mirror_new mirror_applyOp ops

/-- Key-coverage property: the source of every forward edge is a key of
`edges` and its target a key of `reverse`, and symmetrically. -/
def KeyInv (g : Graph) : Prop :=
  (∀ a b, adjMem g.edges a b → a ∈ adjKeys g.edges ∧ b ∈ adjKeys g.reverse) ∧
  (∀ a b, adjMem g.reverse a b → a ∈ adjKeys g.reverse ∧ b ∈ adjKeys g.edges)

theorem keyInv_new : KeyInv Graph.new := by
  constructor <;> intro a b h <;> simp [Graph.new, adjMem, lookupAdj] at h

theorem keyInv_applyOp (g : Graph) (op : Op) (h : KeyInv g) :
    KeyInv (applyOp g op) := by
  obtain ⟨h1, h2⟩ := h
  cases op with
  | addEdge frm dst =>
    by_cases hguard : frm = "" ∨ dst = "" ∨ frm = dst
    · simpa [applyOp, Graph.AddEdge, hguard] using ⟨h1, h2⟩
    · constructor <;> intro a b hmem <;>
        simp only [applyOp, Graph.AddEdge, hguard, if_false] at hmem ⊢ <;>
        rw [adjMem_addToKey] at hmem <;>
        rw [mem_adjKeys_addToKey, mem_adjKeys_addToKey]
      · rcases hmem with ⟨rfl, rfl⟩ | hold
        · exact ⟨Or.inr rfl, Or.inr rfl⟩
        · exact ⟨Or.inl (h1 a b hold).1, Or.inl (h1 a b hold).2⟩
      · rcases hmem with ⟨rfl, rfl⟩ | hold
        · exact ⟨Or.inr rfl, Or.inr rfl⟩
        · exact ⟨Or.inl (h2 a b hold).1, Or.inl (h2 a b hold).2⟩
  | touch n =>
    by_cases hn : n = ""
    · simpa [applyOp, Graph.Touch, hn] using ⟨h1, h2⟩
    · constructor <;> intro a b hmem <;>
        simp only [applyOp, Graph.Touch, hn, if_false] at hmem ⊢ <;>
        rw [adjMem_ensureKey] at hmem <;>
        rw [mem_adjKeys_ensureKey, mem_adjKeys_ensureKey]
      · exact ⟨Or.inl (h1 a b hmem).1, Or.inl (h1 a b hmem).2⟩
      · exact ⟨Or.inl (h2 a b hmem).1, Or.inl (h2 a b hmem).2⟩

theorem keyInv_runOps (ops : List Op) : KeyInv (runOps ops) :=
  runOps_inv keyInv_new keyInv_applyOp ops

/-! ## Impact query (`(*Graph).Impacted`)

The Go implementation is a recursive depth-first search over the reverse
adjacency map sharing one `visited` set.  The shared set is threaded
explicitly; the recursion depth is bounded by a fuel argument that the
top-level entry point instantiates with more than the number of nodes
mentioned by the reverse map, which the completeness lemma shows is
enough. -/

/-- One recursive step of the `dfs` closure inside `Impacted`: look up the
predecessors of `node`; for each one not yet visited, mark it and
recurse. -/
def dfsGo (g : Graph) : Nat → List String → String → List String
  | 0, visited, _ => visited
  | fuel + 1, visited, node =>
    match lookupAdj g.reverse node with
    | none => visited
    | some preds =>
      preds.foldl (fun vis p =>
        if p ∈ vis then vis else dfsGo g fuel (p :: vis) p) visited

/-- Every node mentioned by the reverse adjacency map (keys and set
members). -/
def dfsUniverse (g : Graph) : List String :=
  (adjKeys g.reverse ++ (g.reverse.map Prod.snd).flatten).dedup

/-- Fuel sufficient for the search to run to completion. -/
def dfsFuel (g : Graph) : Nat := (dfsUniverse g).length + 1

/-- `(*Graph).Impacted`: run the search from `start` with an empty visited
set and return the visited nodes, sorted. -/
def Graph.Impacted (g : Graph) (start : String) : List String :=
  sortStrings (dfsGo g (dfsFuel g) [] start)

/-- A reverse edge from `a` to `b`: `b` is recorded as a predecessor of
`a`. -/
def RStep (g : Graph) (a b : String) : Prop :=
  b ∈ (lookupAdj g.reverse a).getD []

/-- Reverse reachability in one or more steps. -/
inductive RevReach (g : Graph) (x : String) : String → Prop where
  | single {p : String} : RStep g x p → RevReach g x p
  | tail {m p : String} : RevReach g x m → RStep g m p → RevReach g x p

/-- A forward edge recorded in the forward adjacency map. -/
def FStep (g : Graph) (a b : String) : Prop :=
  adjMem g.edges a b

/-- Forward paths of length at least one. -/
inductive FwdReach (g : Graph) : String → String → Prop where
  | single {a b : String} : FStep g a b → FwdReach g a b
  | head {a m b : String} : FStep g a m → FwdReach g m b → FwdReach g a b

theorem revReach_trans {g : Graph} {x m y : String}
    (h1 : RevReach g x m) (h2 : RevReach g m y) : RevReach g x y := by
  induction h2 with
  | single hs => exact RevReach.tail h1 hs
  | tail _ hs ih => exact RevReach.tail ih hs

theorem rstep_iff_fstep {g : Graph} (h : Mirror g) (a b : String) :
    RStep g a b ↔ FStep g b a := by
  unfold RStep FStep
  rw [h b a]
  rfl

theorem revReach_iff_fwdReach {g : Graph} (h : Mirror g) (x y : String) :
    RevReach g x y ↔ FwdReach g y x := by
  constructor
  · intro hr
    induction hr with
    | single hs => exact FwdReach.single ((rstep_iff_fstep h _ _).mp hs)
    | tail _ hs ih => exact FwdReach.head ((rstep_iff_fstep h _ _).mp hs) ih
  · intro hf
    induction hf with
    | single hs => exact RevReach.single ((rstep_iff_fstep h _ _).mpr hs)
    | head hs _ ih => exact RevReach.tail ih ((rstep_iff_fstep h _ _).mpr hs)

/-! ### Search lemmas -/

theorem foldl_subset_of_step {f : List String → String → List String}
    (hf : ∀ vis p, vis ⊆ f vis p) :
    ∀ (l : List String) (vis : List String), vis ⊆ List.foldl f vis l := by
  intro l
  induction l with
  | nil => intro vis; exact fun _ hx => hx
  | cons p rest ih =>
    intro vis
    exact fun x hx => ih (f vis p) (hf vis p hx)

theorem dfs_mono (g : Graph) :
    ∀ (fuel : Nat) (vis : List String) (node : String),
      vis ⊆ dfsGo g fuel vis node := by
  intro fuel
  induction fuel with
  | zero => intro vis node; exact fun _ hx => hx
  | succ fuel ih =>
    intro vis node
    unfold dfsGo
    cases hlook : lookupAdj g.reverse node with
    | none => exact fun _ hx => hx
    | some preds =>
      apply foldl_subset_of_step
      intro vis' p
      by_cases hp : p ∈ vis'
      · simp [hp]
      · intro x hx
        simp only [hp, if_false]
        exact ih (p :: vis') p (List.mem_cons_of_mem _ hx)

theorem dfs_sound_aux (g : Graph) (fuel : Nat) (node : String)
    (ih : ∀ (vis : List String) (node y : String),
      y ∈ dfsGo g fuel vis node → y ∈ vis ∨ RevReach g node y) :
    ∀ (l : List String), (∀ p ∈ l, RStep g node p) →
      ∀ (vis : List String) (y : String),
        y ∈ l.foldl (fun vis p =>
          if p ∈ vis then vis else dfsGo g fuel (p :: vis) p) vis →
        y ∈ vis ∨ RevReach g node y := by
  intro l
  induction l with
  | nil => intro _ vis y hy; exact Or.inl hy
  | cons p rest ihl =>
    intro hl vis y hy
    simp only [List.foldl_cons] at hy
    by_cases hp : p ∈ vis
    · rw [if_pos hp] at hy
      exact ihl (fun q hq => hl q (List.mem_cons_of_mem _ hq)) vis y hy
    · rw [if_neg hp] at hy
      have hstep : RStep g node p := hl p (List.mem_cons_self _ _)
      rcases ihl (fun q hq => hl q (List.mem_cons_of_mem _ hq)) _ y hy with hin | hr
      · rcases ih (p :: vis) p y hin with hin2 | hr2
        · rcases List.mem_cons.mp hin2 with rfl | hv
          · exact Or.inr (RevReach.single hstep)
          · exact Or.inl hv
        · exact Or.inr (revReach_trans (RevReach.single hstep) hr2)
      · exact Or.inr hr

theorem dfs_sound (g : Graph) :
    ∀ (fuel : Nat) (vis : List String) (node y : String),
      y ∈ dfsGo g fuel vis node → y ∈ vis ∨ RevReach g node y := by
  intro fuel
  induction fuel with
  | zero => intro vis node y hy; exact Or.inl hy
  | succ fuel ih =>
    intro vis node y hy
    unfold dfsGo at hy
    revert hy
    cases hlook : lookupAdj g.reverse node with
    | none => exact Or.inl
    | some preds =>
      have hpreds : ∀ p ∈ preds, RStep g node p := by
        intro p hp
        unfold RStep
        rw [hlook]
        exact hp
      intro hy
      exact dfs_sound_aux g fuel node ih preds hpreds vis y hy

/-- Number of universe nodes not yet visited: the measure showing the
fuel instantiated by `Impacted` suffices. -/
def kRem (g : Graph) (vis : List String) : Nat :=
  ((dfsUniverse g).filter (fun x => decide (x ∉ vis))).length

theorem filter_length_le_of_imp {α : Type} (l : List α) (p q : α → Bool)
    (h : ∀ x, q x = true → p x = true) :
    (l.filter q).length ≤ (l.filter p).length := by
  induction l with
  | nil => exact Nat.le_refl _
  | cons x rest ih =>
    by_cases hq : q x = true
    · rw [List.filter_cons_of_pos hq, List.filter_cons_of_pos (h x hq)]
      exact Nat.succ_le_succ ih
    · rw [List.filter_cons_of_neg (by simpa using hq)]
      by_cases hp : p x = true
      · rw [List.filter_cons_of_pos hp]
        exact Nat.le_succ_of_le ih
      · rw [List.filter_cons_of_neg (by simpa using hp)]
        exact ih

theorem kRem_mono {g : Graph} {vis vis' : List String} (h : vis ⊆ vis') :
    kRem g vis' ≤ kRem g vis := by
  apply filter_length_le_of_imp
  intro x hx
  simp only [decide_eq_true_eq] at hx ⊢
  exact fun hv => hx (h hv)

theorem filter_not_mem_cons_lt (p : String) :
    ∀ (l vis : List String), p ∈ l → p ∉ vis →
      (l.filter (fun x => decide (x ∉ p :: vis))).length <
        (l.filter (fun x => decide (x ∉ vis))).length := by
  intro l
  induction l with
  | nil => intro vis h; exact absurd h (List.not_mem_nil p)
  | cons x rest ih =>
    intro vis hmem hpv
    by_cases hx : x = p
    · subst hx
      rw [List.filter_cons_of_neg (by simp), List.filter_cons_of_pos (by simpa using hpv)]
      have hle : (rest.filter (fun y => decide (y ∉ x :: vis))).length ≤
          (rest.filter (fun y => decide (y ∉ vis))).length := by
        apply filter_length_le_of_imp
        intro y hy
        simp only [decide_eq_true_eq, List.mem_cons] at hy ⊢
        exact fun hv => hy (Or.inr hv)
      exact Nat.lt_succ_of_le hle
    · have hrest : p ∈ rest := by
        rcases List.mem_cons.mp hmem with h | h
        · exact absurd h.symm hx
        · exact h
      by_cases hv : x ∈ vis
      · rw [List.filter_cons_of_neg (by simp [hv]), List.filter_cons_of_neg (by simp [hv])]
        exact ih vis hrest hpv
      · rw [List.filter_cons_of_pos (by simp [hv, hx]), List.filter_cons_of_pos (by simpa using hv)]
        exact Nat.succ_lt_succ (ih vis hrest hpv)

theorem kRem_cons_lt {g : Graph} {p : String} {vis : List String}
    (hU : p ∈ dfsUniverse g) (hv : p ∉ vis) :
    kRem g (p :: vis) < kRem g vis :=
  filter_not_mem_cons_lt p (dfsUniverse g) vis hU hv

theorem lookupAdj_mem_values {m : Adjacency} {k : String} {v : List String}
    (h : lookupAdj m k = some v) : v ∈ m.map Prod.snd := by
  induction m with
  | nil => simp [lookupAdj] at h
  | cons hd tl ih =>
    obtain ⟨k₀, s₀⟩ := hd
    by_cases hk : k₀ = k
    · rw [lookupAdj, if_pos hk] at h
      simp [(Option.some_inj.mp h).symm]
    · rw [lookupAdj, if_neg hk] at h
      simp only [List.map_cons, List.mem_cons]
      exact Or.inr (ih h)

theorem preds_mem_universe {g : Graph} {node : String} {preds : List String}
    (hlook : lookupAdj g.reverse node = some preds) :
    ∀ p ∈ preds, p ∈ dfsUniverse g := by
  intro p hp
  unfold dfsUniverse
  rw [List.mem_dedup, List.mem_append]
  refine Or.inr ?_
  rw [List.mem_flatten]
  exact ⟨preds, lookupAdj_mem_values hlook, hp⟩

theorem dfs_closed_aux (g : Graph) (fuel : Nat)
    (ih : ∀ (vis : List String) (node : String), kRem g vis < fuel →
      (∀ p, RStep g node p → p ∈ dfsGo g fuel vis node) ∧
      (∀ m, m ∈ dfsGo g fuel vis node → m ∉ vis →
        ∀ q, RStep g m q → q ∈ dfsGo g fuel vis node)) :
    ∀ (l : List String), (∀ p ∈ l, p ∈ dfsUniverse g) →
      ∀ (vis : List String), kRem g vis ≤ fuel →
        vis ⊆ l.foldl (fun vis p =>
            if p ∈ vis then vis else dfsGo g fuel (p :: vis) p) vis ∧
        (∀ p ∈ l, p ∈ l.foldl (fun vis p =>
            if p ∈ vis then vis else dfsGo g fuel (p :: vis) p) vis) ∧
        (∀ m ∈ l.foldl (fun vis p =>
            if p ∈ vis then vis else dfsGo g fuel (p :: vis) p) vis,
          m ∉ vis → ∀ q, RStep g m q →
            q ∈ l.foldl (fun vis p =>
              if p ∈ vis then vis else dfsGo g fuel (p :: vis) p) vis) := by
  intro l
  induction l with
  | nil =>
    intro _ vis _
    refine ⟨fun x hx => hx, by simp, ?_⟩
    intro m hm hnv q hq
    exact absurd hm (by simpa using hnv)
  | cons p rest ihl =>
    intro hU vis hk
    have hUrest : ∀ x ∈ rest, x ∈ dfsUniverse g :=
      fun x hx => hU x (List.mem_cons_of_mem _ hx)
    by_cases hp : p ∈ vis
    · simp only [List.foldl_cons, if_pos hp]
      obtain ⟨ha, hb, hc⟩ := ihl hUrest vis hk
      refine ⟨ha, ?_, ?_⟩
      · intro x hx
        rcases List.mem_cons.mp hx with rfl | hx'
        · exact ha hp
        · exact hb x hx'
      · intro m hm hnv q hq
        exact hc m hm hnv q hq
    · simp only [List.foldl_cons, if_neg hp]
      have hkp : kRem g (p :: vis) < fuel :=
        Nat.lt_of_lt_of_le (kRem_cons_lt (hU p (List.mem_cons_self _ _)) hp) hk
      obtain ⟨hii, hiii⟩ := ih (p :: vis) p hkp
      have hmono2 : p :: vis ⊆ dfsGo g fuel (p :: vis) p := dfs_mono g fuel _ p
      have hk2 : kRem g (dfsGo g fuel (p :: vis) p) ≤ fuel :=
        Nat.le_of_lt (Nat.lt_of_le_of_lt (kRem_mono hmono2) hkp)
      obtain ⟨ha, hb, hc⟩ := ihl hUrest (dfsGo g fuel (p :: vis) p) hk2
      have hvsub : vis ⊆ dfsGo g fuel (p :: vis) p :=
        fun x hx => hmono2 (List.mem_cons_of_mem _ hx)
      refine ⟨fun x hx => ha (hvsub hx), ?_, ?_⟩
      · intro x hx
        rcases List.mem_cons.mp hx with rfl | hx'
        · exact ha (hmono2 (List.mem_cons_self _ _))
        · exact hb x hx'
      · intro m hm hnv q hq
        by_cases hm2 : m ∈ dfsGo g fuel (p :: vis) p
        · by_cases hmp : m = p
          · subst hmp
            exact ha (hii q hq)
          · have : m ∉ p :: vis := by
              intro hmem
              rcases List.mem_cons.mp hmem with h | h
              · exact hmp h
              · exact hnv h
            exact ha (hiii m hm2 this q hq)
        · exact hc m hm hm2 q hq

theorem dfs_closed (g : Graph) :
    ∀ (fuel : Nat) (vis : List String) (node : String), kRem g vis < fuel →
      (∀ p, RStep g node p → p ∈ dfsGo g fuel vis node) ∧
      (∀ m, m ∈ dfsGo g fuel vis node → m ∉ vis →
        ∀ q, RStep g m q → q ∈ dfsGo g fuel vis node) := by
  intro fuel
  induction fuel with
  | zero => intro vis node hk; exact absurd hk (Nat.not_lt_zero _)
  | succ fuel ih =>
    intro vis node hk
    unfold dfsGo
    cases hlook : lookupAdj g.reverse node with
    | none =>
      constructor
      · intro p hp
        unfold RStep at hp
        rw [hlook] at hp
        simp at hp
      · intro m hm hnv q _
        exact absurd hm hnv
    | some preds =>
      obtain ⟨ha, hb, hc⟩ := dfs_closed_aux g fuel ih preds
        (preds_mem_universe hlook) vis (Nat.le_of_lt_succ hk)
      constructor
      · intro p hp
        unfold RStep at hp
        rw [hlook] at hp
        exact hb p hp
      · exact hc

theorem kRem_nil (g : Graph) : kRem g [] = (dfsUniverse g).length := by
  unfold kRem
  simp

/-- Membership characterization of the impact query: exactly the nodes
reachable from `start` through one or more reverse edges. -/
theorem impacted_mem_iff (g : Graph) (start y : String) :
    y ∈ g.Impacted start ↔ RevReach g start y := by
  unfold Graph.Impacted
  rw [mem_sortStrings]
  constructor
  · intro h
    rcases dfs_sound g (dfsFuel g) [] start y h with h0 | hr
    · exact absurd h0 (List.not_mem_nil y)
    · exact hr
  · intro hr
    have hk : kRem g [] < dfsFuel g := by
      rw [kRem_nil]
      exact Nat.lt_succ_self _
    obtain ⟨hii, hiii⟩ := dfs_closed g (dfsFuel g) [] start hk
    induction hr with
    | single hs => exact hii _ hs
    | tail _ hs ih => exact hiii _ ih (List.not_mem_nil _) _ hs

/-! ## Claim theorems: graph store -/

/-- C1 (counterexample): on the two-cycle built by `AddEdge("a","b")` and
`AddEdge("b","a")`, `Impacted("a")` contains `"a"` itself, so the start
node is NOT excluded when it lies on a directed cycle. -/
theorem c1_impacted_cycle_counterexample :
    adjMem (runOps [Op.addEdge "a" "b", Op.addEdge "b" "a"]).edges "a" "b" ∧
    adjMem (runOps [Op.addEdge "a" "b", Op.addEdge "b" "a"]).edges "b" "a" ∧
    "a" ∈ (runOps [Op.addEdge "a" "b", Op.addEdge "b" "a"]).Impacted "a" := by
  decide

/-- C1 (amended): for every graph built by a sequence of `AddEdge`/`Touch`
operations and every start node `x`, `Impacted(x)` is exactly the set of
nodes `y` admitting a directed forward path `y → … → x` of length at least
one; consequently `x` itself appears exactly when `x` lies on a directed
cycle, and an unknown start yields the empty set. -/
theorem c1_impacted_is_fwd_reach (ops : List Op) (start y : String) :
    y ∈ (runOps ops).Impacted start ↔ FwdReach (runOps ops) y start := by
  rw [impacted_mem_iff]
  exact revReach_iff_fwdReach (mirror_runOps ops) start y

/-- Witness for C1's amended theorem at a concrete one-edge graph. -/
theorem c1_impacted_is_fwd_reach_witness :
    "b" ∈ (runOps [Op.addEdge "b" "a"]).Impacted "a" := by
  apply (c1_impacted_is_fwd_reach [Op.addEdge "b" "a"] "a" "b").mpr
  apply FwdReach.single
  show adjMem (runOps [Op.addEdge "b" "a"]).edges "b" "a"
  decide

/-- C6 (counterexample): after `AddEdge("a","b")` from the empty graph,
`"b"` is not a key of the forward map and `"a"` is not a key of the
reverse map, refuting "every referenced node is a key in both mappings". -/
theorem c6_keys_counterexample :
    adjMem (runOps [Op.addEdge "a" "b"]).edges "a" "b" ∧
    "b" ∉ adjKeys (runOps [Op.addEdge "a" "b"]).edges ∧
    "a" ∉ adjKeys (runOps [Op.addEdge "a" "b"]).reverse := by
  decide

/-- C6 (amended): after any sequence of `AddEdge`/`Touch` operations from
the empty graph, the source of every recorded edge is a key of the forward
map `Out` and its target a key of the reverse map `In`; hence every node
referenced by an edge is in the node set `keys(Out) ∪ keys(In)`. -/
theorem c6_edge_endpoints_are_keys (ops : List Op) (a b : String)
    (h : adjMem (runOps ops).edges a b) :
    a ∈ adjKeys (runOps ops).edges ∧ b ∈ adjKeys (runOps ops).reverse ∧
    a ∈ (runOps ops).Nodes ∧ b ∈ (runOps ops).Nodes := by
  obtain ⟨h1, _⟩ := keyInv_runOps ops
  obtain ⟨ha, hb⟩ := h1 a b h
  exact ⟨ha, hb, (mem_nodes_iff _ _).mpr (Or.inl ha),
    (mem_nodes_iff _ _).mpr (Or.inr hb)⟩

/-- Witness for C6's amended theorem. -/
theorem c6_edge_endpoints_are_keys_witness :
    "a" ∈ adjKeys (runOps [Op.addEdge "a" "b"]).edges ∧
    "b" ∈ adjKeys (runOps [Op.addEdge "a" "b"]).reverse ∧
    "a" ∈ (runOps [Op.addEdge "a" "b"]).Nodes ∧
    "b" ∈ (runOps [Op.addEdge "a" "b"]).Nodes :=
  c6_edge_endpoints_are_keys [Op.addEdge "a" "b"] "a" "b" (by decide)

/-- C7: the mirror invariant holds after every sequence of `AddEdge` and
`Touch` operations from the empty graph: `b ∈ Out[a]` exactly when
`a ∈ In[b]`. -/
theorem c7_mirror_invariant (ops : List Op) (a b : String) :
    adjMem (runOps ops).edges a b ↔ adjMem (runOps ops).reverse b a :=
  mirror_runOps ops a b

/-- Witness for C7 at a concrete graph. -/
theorem c7_mirror_invariant_witness :
    adjMem (runOps [Op.addEdge "a" "b"]).reverse "b" "a" :=
  (c7_mirror_invariant [Op.addEdge "a" "b"] "a" "b").mp (by decide)

/-! ## File system model

`os.Stat`/`os.ReadFile` are modelled against an explicit snapshot of the
disk: an association list of regular files with contents, and a list of
directories. -/

/-- Association-list lookup for string-keyed maps. -/
def lookupStr : List (String × String) → String → Option String
  | [], _ => none
  | (k, v) :: rest, key => if k = key then some v else lookupStr rest key

/-- Disk snapshot: regular files (with contents) and directories. -/
structure FS where
  files : List (String × String)
  dirs : List String

/-- `os.Stat`: `some true` for a directory, `some false` for a regular
file, `none` (an error) otherwise. -/
def statGo (fs : FS) (p : String) : Option Bool :=
  if p ∈ fs.dirs then some true
  else if (lookupStr fs.files p).isSome then some false
  else none

/-- `err == nil && !info.IsDir()`: the path is a regular file. -/
def statFile (fs : FS) (p : String) : Bool :=
  match statGo fs p with
  | some false => true
  | _ => false

/-- `err == nil && info.IsDir()`: the path is a directory. -/
def statDir (fs : FS) (p : String) : Bool :=
  match statGo fs p with
  | some true => true
  | _ => false

/-- `tsgraph.fileExists`: bare `os.Stat` success (file OR directory). -/
def fileExists (fs : FS) (p : String) : Bool :=
  (statGo fs p).isSome

/-- `os.ReadFile`: contents of a regular file, failure on directories and
missing paths. -/
def readFileGo (fs : FS) (p : String) : Option String :=
  if p ∈ fs.dirs then none else lookupStr fs.files p

/-! ## Import extraction filters (package `scan`) -/

/-- `scan.isRelativeImport`. -/
def isRelativeImport (spec : String) : Bool :=
  strHasPref spec "./" || strHasPref spec "../"

/-- The normalisation loop at the end of `scan.ParseImports` (the regex
path): only style extensions are discarded. -/
def parseImportsFilter (seen : List String) : List String :=
  seen.filter (fun module =>
    let l := strToLower module
    !(strHasSuf l ".css" || strHasSuf l ".scss" ||
      strHasSuf l ".less" || strHasSuf l ".yml"))

/-- The filter loop at the end of `scan.parseImportsAST` (the tree-sitter
path): globs plus the full style/asset extension list are discarded. -/
def astImportsFilter (specs : List String) : List String :=
  specs.filter (fun module =>
    let l := strToLower module
    !(strHasChar module '*' ||
      strHasSuf l ".css" || strHasSuf l ".scss" || strHasSuf l ".less" ||
      strHasSuf l ".yml" ||
      strHasSuf l ".jpg" || strHasSuf l ".jpeg" || strHasSuf l ".png" ||
      strHasSuf l ".gif" || strHasSuf l ".svg" ||
      strHasSuf l ".mp3" || strHasSuf l ".mp4"))

/-! ## Module resolvers -/

/-- `scan.Resolve` (the legacy resolver used by both scan builders): bare
specifiers become `pkg:` markers; relative/absolute specifiers probe the
exact candidate, then directory `index.{ts,tsx}`, then `candidate+ext` for
an extensionless candidate; a miss is an error (`none`). -/
def Resolve (fs : FS) (fromFile spec : String) : Option String :=
  if !(strHasPref spec "./" || strHasPref spec "../" || strHasPref spec "/") then
    some ("pkg:" ++ spec)
  else
    let base := dirGo fromFile
    let candidate := cleanGo (joinGo base spec)
    if statFile fs candidate then some candidate
    else
      let extensions := [".ts", ".tsx"]
      let idx :=
        if statDir fs candidate then
          (extensions.map (fun e => joinGo candidate ("index" ++ e))).find? (statFile fs)
        else none
      match idx with
      | some t => some t
      | none =>
        if extGo candidate = "" then
          (extensions.map (fun e => candidate ++ e)).find? (statFile fs)
        else none

/-- `scan.resolveFile` (tsconfig.go): the richer probe with extension list
`.ts`, `.tsx`, `.js`, `.jsx`, in that order for both `index.<ext>` and
appended extensions. -/
def resolveFile (fs : FS) (fromFile spec : String) : Option String :=
  let base := dirGo fromFile
  let candidate := cleanGo (joinGo base spec)
  if statFile fs candidate then some candidate
  else
    let extensions := [".ts", ".tsx", ".js", ".jsx"]
    let idx :=
      if statDir fs candidate then
        (extensions.map (fun e => joinGo candidate ("index" ++ e))).find? (statFile fs)
      else none
    match idx with
    | some t => some t
    | none =>
      if extGo candidate = "" then
        (extensions.map (fun e => candidate ++ e)).find? (statFile fs)
      else none

/-- Extracted per-file information (`tsgraph.FileInfo`). -/
structure FileInfo where
  Path : String
  Components : List String
  ImportMap : List (String × String)
  JSXIdentifiers : List String

/-- The extension probe of `tsgraph.ResolveImportedComponent`: for an
extensionless candidate try `cand+ext` for `ext ∈ [.tsx, .ts]` in that
order (the loop unrolled); otherwise accept the exact candidate when
`os.Stat` succeeds on it. -/
def probeComponent (fs : FS) (cand : String) : Option String :=
  if extGo cand = "" then
    [cand ++ ".tsx", cand ++ ".ts"].find? (fileExists fs)
  else if fileExists fs cand then some cand
  else none

/-- The trailing `index.<ext>` probe of `tsgraph.ResolveImportedComponent`
(`ext ∈ [.tsx, .ts]`, loop unrolled). -/
def probeComponentIndex (fs : FS) (cand : String) : Option String :=
  [joinGo cand "index.tsx", joinGo cand "index.ts"].find? (fileExists fs)

/-- `tsgraph.ResolveImportedComponent`: map a JSX identifier through
the import map; for a relative/absolute module, probe `cand+ext` for
`ext ∈ [.tsx, .ts]` when the candidate is extensionless (else the exact
candidate), then fall through to `cand/index.<ext>`; anything else
resolves to `""`. -/
def ResolveImportedComponent (fs : FS) (currentFile : String)
    (importMap : List (String × String)) (ident : String) : String :=
  match lookupStr importMap ident with
  | none => ""
  | some mod =>
    if strHasPref mod "./" || strHasPref mod "../" || strHasPref mod "/" then
      match probeComponent fs (cleanGo (joinGo (dirGo currentFile) mod)) with
      | some p => p
      | none =>
        match probeComponentIndex fs (cleanGo (joinGo (dirGo currentFile) mod)) with
        | some p => p
        | none => ""
    else ""

/-! ## Claim theorems: filters and resolvers -/

/-- C8 evaluated at the failing input: the regex-path filter keeps glob
and image specifiers (it only discards style extensions), while the
AST-path filter discards them all; the claim holds only for the AST
path. -/
theorem c8_filter_divergence :
    parseImportsFilter ["./module", "../*.jpg", "./a.png", "./b.svg", "./styles.css"] =
      ["./module", "../*.jpg", "./a.png", "./b.svg"] ∧
    astImportsFilter ["./module", "../*.jpg", "./a.png", "./b.svg", "./styles.css"] =
      ["./module"] := by
  decide

/-- C9: when the relative candidate misses as a regular file, the richer
resolver probes in the fixed order `.ts`, `.tsx`, `.js`, `.jsx` and
returns the first hit — for an extensionless non-directory candidate the
result is exactly the first extension probe that hits; for a directory
candidate a hit among the `index.<ext>` probes (same order) is returned. -/
theorem c9_resolver_first_hit :
    (∀ (fs : FS) (fromFile spec : String),
      statFile fs (cleanGo (joinGo (dirGo fromFile) spec)) = false →
      statDir fs (cleanGo (joinGo (dirGo fromFile) spec)) = false →
      extGo (cleanGo (joinGo (dirGo fromFile) spec)) = "" →
      resolveFile fs fromFile spec =
        ([".ts", ".tsx", ".js", ".jsx"].map
          (fun e => cleanGo (joinGo (dirGo fromFile) spec) ++ e)).find? (statFile fs)) ∧
    (∀ (fs : FS) (fromFile spec t : String),
      statFile fs (cleanGo (joinGo (dirGo fromFile) spec)) = false →
      statDir fs (cleanGo (joinGo (dirGo fromFile) spec)) = true →
      [joinGo (cleanGo (joinGo (dirGo fromFile) spec)) "index.ts",
       joinGo (cleanGo (joinGo (dirGo fromFile) spec)) "index.tsx",
       joinGo (cleanGo (joinGo (dirGo fromFile) spec)) "index.js",
       joinGo (cleanGo (joinGo (dirGo fromFile) spec)) "index.jsx"].find?
          (statFile fs) = some t →
      resolveFile fs fromFile spec = some t) := by
  constructor
  · intro fs fromFile spec hfile hdir hext
    simp [resolveFile, hfile, hdir, hext]
  · intro fs fromFile spec t hfile hdir hhit
    simp [resolveFile, hfile, hdir]
    rw [hhit]

/-- The disk snapshot of the first-hit scenario: both `util.ts` and
`util.js` exist beside the importer. -/
def fsUtil : FS :=
  ⟨[("/ws/util.ts", "export const u = 1"),
    ("/ws/util.js", "module.exports = 1"),
    ("/ws/main.tsx", "import u from './util'")], ["/ws"]⟩

/-- Witness for C9: with both `util.ts` and `util.js` on disk, resolving
`./util` returns `util.ts`. -/
theorem c9_resolver_first_hit_witness :
    resolveFile fsUtil "/ws/main.tsx" "./util" = some "/ws/util.ts" := by
  rw [c9_resolver_first_hit.1 fsUtil "/ws/main.tsx" "./util"
    (by decide) (by decide) (by decide)]
  decide

/-- One `(file, imports)` record of the full-tree builder's result
stream (`scan.Result`). -/
structure GoResult where
  File : String
  Imports : List String
  Err : Bool

/-- The result-consuming phase of `scan.BuildGraph` (its end-of-stream
behaviour included): skip errored records, `Touch` each file, resolve each
specifier, record unresolved relative imports, and at end of stream return
the graph together with an error whenever any unresolved entry was
recorded. -/
def buildGraphConsume (fs : FS) (rs : List GoResult) : Graph × Option String :=
  let final := rs.foldl (fun (acc : Graph × List (String × String)) r =>
    if r.Err then acc
    else
      r.Imports.foldl (fun (acc2 : Graph × List (String × String)) spec =>
        match Resolve fs r.File spec with
        | none =>
          if isRelativeImport spec then (acc2.1, acc2.2 ++ [(r.File, spec)]) else acc2
        | some dst =>
          if dst = "" then acc2
          else if isRelativeImport spec && !statFile fs dst then
            (acc2.1, acc2.2 ++ [(r.File, spec)])
          else (acc2.1.AddEdge r.File dst, acc2.2)) (acc.1.Touch r.File, acc.2))
    (Graph.new, [])
  match final.2 with
  | [] => (final.1, none)
  | _ => (final.1, some "some imports could not be resolved:")

/-- The disk snapshot of the unresolved-import scenario: `a.ts` exists,
its import target does not. -/
def fsC3 : FS := ⟨[("/ws/a.ts", "import './missing'")], ["/ws"]⟩

/-- C3 evaluated at the failing input: with one unresolved relative
specifier, `BuildGraph`'s end-of-stream step returns the partial graph (the
file is a node) together with a non-nil error, so the build DOES fail for
its caller. -/
theorem c3_buildgraph_returns_error :
    (buildGraphConsume fsC3 [⟨"/ws/a.ts", ["./missing"], false⟩]).2.isSome = true ∧
    "/ws/a.ts" ∈ (buildGraphConsume fsC3 [⟨"/ws/a.ts", ["./missing"], false⟩]).1.Nodes := by
  decide

/-! ## Worklist engine

Both entry-driven builders (`scan.BuildGraphFromEntries` and
`tsgraph.BuildComponentGraphFromEntriesProgress`) share the same
protocol: a queue of paths, a visited set admitting each path once, and
an inflight counter whose final decrement closes the queue.  The protocol
is modelled sequentially: one state carries the graph, the visited list
and the queue; processing pops a path, lets the builder-specific handler
update the graph and produce candidate targets, and enqueues the targets
not yet visited.  An empty queue is the closed-queue (terminated)
state. -/

/-- Builder state: graph under construction, visited set, work queue. -/
structure BuildState where
  g : Graph
  visited : List String
  queue : List String

/-- The guarded `enqueue` closure: admit `p` only when unvisited; an
admission appends to both the visited set and the queue (the inflight
increment). -/
def enqueue1 (st : BuildState) (p : String) : BuildState :=
  if p ∈ st.visited then st
  else { g := st.g, visited := st.visited ++ [p], queue := st.queue ++ [p] }

/-- Enqueue a list of candidate targets in order. -/
def enqueueAll (st : BuildState) (ps : List String) : BuildState :=
  ps.foldl enqueue1 st

/-- The worker loop: pop a path, run the handler, enqueue its targets;
the loop ends when the queue is empty (inflight reached zero). -/
def runQueue (handle : Graph → String → Graph × List String) :
    Nat → BuildState → BuildState
  | 0, st => st
  | fuel + 1, st =>
    match st.queue with
    | [] => st
    | p :: rest =>
      runQueue handle fuel
        (enqueueAll { g := (handle st.g p).1, visited := st.visited, queue := rest }
          (handle st.g p).2)

/-- Both key lists of the graph (the node set before sorting). -/
def nodeKeys (g : Graph) : List String :=
  adjKeys g.edges ++ adjKeys g.reverse

/-- Nodes not yet visited among a potential-set `P`. -/
def remCount (P vis : List String) : Nat :=
  (P.dedup.filter (fun x => decide (x ∉ vis))).length

/-- Termination measure of a builder state over potential-set `P`. -/
def engineMeasure (P : List String) (st : BuildState) : Nat :=
  2 * remCount P st.visited + st.queue.length

theorem remCount_mono {P vis vis' : List String} (h : vis ⊆ vis') :
    remCount P vis' ≤ remCount P vis := by
  apply filter_length_le_of_imp
  intro x hx
  simp only [decide_eq_true_eq] at hx ⊢
  exact fun hv => hx (h hv)

theorem remCount_append_lt {P vis : List String} {p : String}
    (hp : p ∈ P) (hv : p ∉ vis) :
    remCount P (vis ++ [p]) < remCount P vis := by
  unfold remCount
  have hcong : P.dedup.filter (fun x => decide (x ∉ vis ++ [p])) =
      P.dedup.filter (fun x => decide (x ∉ p :: vis)) := by
    apply List.filter_congr
    intro x _
    apply decide_eq_decide.mpr
    simp only [List.mem_append, List.mem_cons, List.mem_singleton]
    tauto
  rw [hcong]
  exact filter_not_mem_cons_lt p P.dedup vis (List.mem_dedup.mpr hp) hv

/-! ### `enqueue1` facts -/

theorem enqueue1_g (st : BuildState) (p : String) : (enqueue1 st p).g = st.g := by
  unfold enqueue1
  split <;> rfl

theorem enqueue1_vis_mono (st : BuildState) (p : String) :
    st.visited ⊆ (enqueue1 st p).visited := by
  unfold enqueue1
  split
  · exact fun _ hx => hx
  · exact fun x hx => List.mem_append_left _ hx

theorem enqueue1_vis_mem (st : BuildState) (p : String) :
    p ∈ (enqueue1 st p).visited := by
  unfold enqueue1
  split
  · assumption
  · simp

theorem enqueue1_queue_mono (st : BuildState) (p : String) :
    st.queue ⊆ (enqueue1 st p).queue := by
  unfold enqueue1
  split
  · exact fun _ hx => hx
  · exact fun x hx => List.mem_append_left _ hx

theorem enqueue1_nodup (st : BuildState) (p : String)
    (h : st.visited.Nodup) : (enqueue1 st p).visited.Nodup := by
  unfold enqueue1
  split
  · exact h
  · rw [List.nodup_append]
    exact ⟨h, List.nodup_singleton _, by
      intro x hx hs
      rw [List.mem_singleton] at hs
      subst hs
      exact absurd hx (by assumption)⟩

theorem enqueue1_queue_sub_vis (st : BuildState) (p : String)
    (h : ∀ q ∈ st.queue, q ∈ st.visited) :
    ∀ q ∈ (enqueue1 st p).queue, q ∈ (enqueue1 st p).visited := by
  unfold enqueue1
  split
  · exact h
  · intro q hq
    rcases List.mem_append.mp hq with hql | hqr
    · exact List.mem_append_left _ (h q hql)
    · exact List.mem_append_right _ hqr

theorem enqueue1_vis_in_P {P : List String} (st : BuildState) (p : String)
    (hst : ∀ x ∈ st.visited, x ∈ P) (hp : p ∈ P) :
    ∀ x ∈ (enqueue1 st p).visited, x ∈ P := by
  unfold enqueue1
  split
  · exact hst
  · intro x hx
    rcases List.mem_append.mp hx with hxl | hxr
    · exact hst x hxl
    · rw [List.mem_singleton] at hxr
      subst hxr
      exact hp

theorem enqueue1_vis_cases (st : BuildState) (p : String) :
    ∀ x ∈ (enqueue1 st p).visited, x ∈ st.visited ∨ x ∈ (enqueue1 st p).queue := by
  unfold enqueue1
  split
  · exact fun x hx => Or.inl hx
  · intro x hx
    rcases List.mem_append.mp hx with hxl | hxr
    · exact Or.inl hxl
    · exact Or.inr (List.mem_append_right _ hxr)

theorem enqueue1_measure {P : List String} (st : BuildState) (p : String)
    (hp : p ∈ P) :
    engineMeasure P (enqueue1 st p) ≤ engineMeasure P st := by
  unfold enqueue1
  split
  · exact Nat.le_refl _
  · rename_i hnv
    unfold engineMeasure
    simp only [List.length_append, List.length_singleton]
    have hlt : remCount P (st.visited ++ [p]) < remCount P st.visited :=
      remCount_append_lt hp hnv
    omega

/-! ### `enqueueAll` facts -/

theorem enqueueAll_g (ps : List String) : ∀ (st : BuildState),
    (enqueueAll st ps).g = st.g := by
  induction ps with
  | nil => intro st; rfl
  | cons p rest ih =>
    intro st
    show (enqueueAll (enqueue1 st p) rest).g = st.g
    rw [ih, enqueue1_g]

theorem enqueueAll_vis_mono (ps : List String) : ∀ (st : BuildState),
    st.visited ⊆ (enqueueAll st ps).visited := by
  induction ps with
  | nil => intro st; exact fun _ hx => hx
  | cons p rest ih =>
    intro st x hx
    exact ih (enqueue1 st p) (enqueue1_vis_mono st p hx)

theorem enqueueAll_queue_mono (ps : List String) : ∀ (st : BuildState),
    st.queue ⊆ (enqueueAll st ps).queue := by
  induction ps with
  | nil => intro st; exact fun _ hx => hx
  | cons p rest ih =>
    intro st x hx
    exact ih (enqueue1 st p) (enqueue1_queue_mono st p hx)

theorem enqueueAll_vis_mem (ps : List String) : ∀ (st : BuildState),
    ∀ x ∈ ps, x ∈ (enqueueAll st ps).visited := by
  induction ps with
  | nil => intro st x hx; exact absurd hx (List.not_mem_nil x)
  | cons p rest ih =>
    intro st x hx
    rcases List.mem_cons.mp hx with rfl | hx'
    · exact enqueueAll_vis_mono rest (enqueue1 st x) (enqueue1_vis_mem st x)
    · exact ih (enqueue1 st p) x hx'

theorem enqueueAll_nodup (ps : List String) : ∀ (st : BuildState),
    st.visited.Nodup → (enqueueAll st ps).visited.Nodup := by
  induction ps with
  | nil => intro st h; exact h
  | cons p rest ih =>
    intro st h
    exact ih (enqueue1 st p) (enqueue1_nodup st p h)

theorem enqueueAll_queue_sub_vis (ps : List String) : ∀ (st : BuildState),
    (∀ q ∈ st.queue, q ∈ st.visited) →
    ∀ q ∈ (enqueueAll st ps).queue, q ∈ (enqueueAll st ps).visited := by
  induction ps with
  | nil => intro st h; exact h
  | cons p rest ih =>
    intro st h
    exact ih (enqueue1 st p) (enqueue1_queue_sub_vis st p h)

theorem enqueueAll_vis_in_P {P : List String} (ps : List String) :
    ∀ (st : BuildState), (∀ x ∈ st.visited, x ∈ P) → (∀ x ∈ ps, x ∈ P) →
    ∀ x ∈ (enqueueAll st ps).visited, x ∈ P := by
  induction ps with
  | nil => intro st h _; exact h
  | cons p rest ih =>
    intro st h hps
    exact ih (enqueue1 st p)
      (enqueue1_vis_in_P st p h (hps p (List.mem_cons_self _ _)))
      (fun x hx => hps x (List.mem_cons_of_mem _ hx))

theorem enqueueAll_vis_cases (ps : List String) : ∀ (st : BuildState),
    ∀ x ∈ (enqueueAll st ps).visited,
      x ∈ st.visited ∨ x ∈ (enqueueAll st ps).queue := by
  induction ps with
  | nil => intro st x hx; exact Or.inl hx
  | cons p rest ih =>
    intro st x hx
    rcases ih (enqueue1 st p) x hx with hv | hq
    · rcases enqueue1_vis_cases st p x hv with hv0 | hq0
      · exact Or.inl hv0
      · exact Or.inr (enqueueAll_queue_mono rest (enqueue1 st p) hq0)
    · exact Or.inr hq

theorem enqueueAll_measure {P : List String} (ps : List String) :
    ∀ (st : BuildState), (∀ x ∈ ps, x ∈ P) →
    engineMeasure P (enqueueAll st ps) ≤ engineMeasure P st := by
  induction ps with
  | nil => intro st _; exact Nat.le_refl _
  | cons p rest ih =>
    intro st hps
    exact Nat.le_trans
      (ih (enqueue1 st p) (fun x hx => hps x (List.mem_cons_of_mem _ hx)))
      (enqueue1_measure st p (hps p (List.mem_cons_self _ _)))

/-! ### The engine specification -/

/-- Full specification of the sequential worklist run, generic in the
builder-specific handler.  `P` bounds everything that can ever be
enqueued, `outsOf` is the handler's (graph-independent) target list,
`TouchP p` says the handler records `p` as a graph node, and `Φ` is any
handler-preserved graph property. -/
theorem runQueue_spec
    (handle : Graph → String → Graph × List String)
    (P : List String) (outsOf : String → List String)
    (TouchP : String → Prop) (Φ : Graph → Prop)
    (houts : ∀ g p, (handle g p).2 = outsOf p)
    (hPouts : ∀ p t, t ∈ outsOf p → t ∈ P)
    (hmono : ∀ g p n, n ∈ nodeKeys g → n ∈ nodeKeys (handle g p).1)
    (hTouch : ∀ g p, TouchP p → p ∈ nodeKeys (handle g p).1)
    (hphi : ∀ g p, p ∈ P → Φ g → Φ (handle g p).1) :
    ∀ (fuel : Nat) (st : BuildState),
      engineMeasure P st < fuel →
      st.visited.Nodup →
      (∀ q ∈ st.queue, q ∈ st.visited) →
      (∀ x ∈ st.visited, x ∈ P) →
      (∀ x ∈ st.visited, x ∈ st.queue ∨ (∀ t ∈ outsOf x, t ∈ st.visited)) →
      (∀ x ∈ st.visited, x ∈ st.queue ∨ (TouchP x → x ∈ nodeKeys st.g)) →
      Φ st.g →
      (runQueue handle fuel st).queue = [] ∧
      (runQueue handle fuel st).visited.Nodup ∧
      st.visited ⊆ (runQueue handle fuel st).visited ∧
      (∀ x ∈ (runQueue handle fuel st).visited, x ∈ P) ∧
      (∀ x ∈ (runQueue handle fuel st).visited,
        ∀ t ∈ outsOf x, t ∈ (runQueue handle fuel st).visited) ∧
      (∀ x ∈ (runQueue handle fuel st).visited,
        TouchP x → x ∈ nodeKeys (runQueue handle fuel st).g) ∧
      Φ (runQueue handle fuel st).g := by
  intro fuel
  induction fuel with
  | zero =>
    intro st hM
    exact absurd hM (Nat.not_lt_zero _)
  | succ fuel ih =>
    intro st hM hnd hqv hP houtInv htouchInv hΦg
    show _ ∧ _
    cases hq : st.queue with
    | nil =>
      have hrun : runQueue handle (fuel + 1) st = st := by
        simp only [runQueue, hq]
      rw [hrun, hq]
      refine ⟨rfl, hnd, fun _ hx => hx, hP, ?_, ?_, hΦg⟩
      · intro x hx t ht
        rcases houtInv x hx with hcq | hout
        · rw [hq] at hcq
          exact absurd hcq (List.not_mem_nil x)
        · exact hout t ht
      · intro x hx htp
        rcases htouchInv x hx with hcq | htc
        · rw [hq] at hcq
          exact absurd hcq (List.not_mem_nil x)
        · exact htc htp
    | cons p rest =>
      have hrun : runQueue handle (fuel + 1) st =
          runQueue handle fuel (enqueueAll
            { g := (handle st.g p).1, visited := st.visited, queue := rest }
            (handle st.g p).2) := by
        simp only [runQueue, hq]
      rw [hrun]
      have hpP : p ∈ P := hP p (hqv p (by rw [hq]; exact List.mem_cons_self _ _))
      have hpvis : p ∈ st.visited := hqv p (by rw [hq]; exact List.mem_cons_self _ _)
      set mid : BuildState :=
        { g := (handle st.g p).1, visited := st.visited, queue := rest } with hmid
      set st' : BuildState := enqueueAll mid (handle st.g p).2 with hst'
      have houtsP : ∀ t ∈ (handle st.g p).2, t ∈ P := by
        intro t ht
        rw [houts] at ht
        exact hPouts p t ht
      have hM' : engineMeasure P st' < fuel := by
        have h1 : engineMeasure P st' ≤ engineMeasure P mid :=
          enqueueAll_measure _ mid houtsP
        have h2 : engineMeasure P mid + 1 = engineMeasure P st := by
          unfold engineMeasure
          rw [hmid, hq]
          simp [List.length_cons]
          omega
        omega
      have hnd' : st'.visited.Nodup := enqueueAll_nodup _ mid hnd
      have hqv' : ∀ q ∈ st'.queue, q ∈ st'.visited := by
        apply enqueueAll_queue_sub_vis
        intro q hqm
        exact hqv q (by rw [hq]; exact List.mem_cons_of_mem _ hqm)
      have hP' : ∀ x ∈ st'.visited, x ∈ P :=
        enqueueAll_vis_in_P _ mid hP houtsP
      have hvm : st.visited ⊆ st'.visited := enqueueAll_vis_mono _ mid
      have hqm : rest ⊆ st'.queue := enqueueAll_queue_mono _ mid
      have hg' : st'.g = (handle st.g p).1 := enqueueAll_g _ mid
      have houtInv' : ∀ x ∈ st'.visited,
          x ∈ st'.queue ∨ (∀ t ∈ outsOf x, t ∈ st'.visited) := by
        intro x hx
        rcases enqueueAll_vis_cases _ mid x hx with hv | hqx
        · by_cases hxp : x = p
          · subst hxp
            refine Or.inr ?_
            intro t ht
            have : t ∈ (handle st.g x).2 := by rw [houts]; exact ht
            exact enqueueAll_vis_mem _ mid t this
          · rcases houtInv x hv with hcq | hout
            · rw [hq] at hcq
              rcases List.mem_cons.mp hcq with h | h
              · exact absurd h hxp
              · exact Or.inl (hqm h)
            · exact Or.inr (fun t ht => hvm (hout t ht))
        · exact Or.inl hqx
      have htouchInv' : ∀ x ∈ st'.visited,
          x ∈ st'.queue ∨ (TouchP x → x ∈ nodeKeys st'.g) := by
        intro x hx
        rcases enqueueAll_vis_cases _ mid x hx with hv | hqx
        · by_cases hxp : x = p
          · subst hxp
            refine Or.inr ?_
            intro htp
            rw [hg']
            exact hTouch st.g x htp
          · rcases htouchInv x hv with hcq | htc
            · rw [hq] at hcq
              rcases List.mem_cons.mp hcq with h | h
              · exact absurd h hxp
              · exact Or.inl (hqm h)
            · refine Or.inr ?_
              intro htp
              rw [hg']
              exact hmono st.g p x (htc htp)
        · exact Or.inl hqx
      have hΦ' : Φ st'.g := by
        rw [hg']
        exact hphi st.g p hpP hΦg
      obtain ⟨r1, r2, r3, r4, r5, r6, r7⟩ :=
        ih st' hM' hnd' hqv' hP' houtInv' htouchInv' hΦ'
      exact ⟨r1, r2, fun x hx => r3 (hvm hx), r4, r5, r6, r7⟩

/-! ## Graph-key lemmas used by the builder handlers -/

theorem adjMem_addEdge {g : Graph} {frm dst a b : String}
    (h : adjMem (g.AddEdge frm dst).edges a b) :
    (a = frm ∧ b = dst) ∨ adjMem g.edges a b := by
  unfold Graph.AddEdge at h
  split at h
  · exact Or.inr h
  · exact (adjMem_addToKey _ _ _ _ _).mp h

theorem adjMem_touch {g : Graph} {n a b : String}
    (h : adjMem (g.Touch n).edges a b) : adjMem g.edges a b := by
  unfold Graph.Touch at h
  split at h
  · exact h
  · exact (adjMem_ensureKey _ _ _ _).mp h

theorem nodeKeys_addEdge_mono {g : Graph} {frm dst n : String}
    (h : n ∈ nodeKeys g) : n ∈ nodeKeys (g.AddEdge frm dst) := by
  unfold Graph.AddEdge
  split
  · exact h
  · unfold nodeKeys at h ⊢
    rcases List.mem_append.mp h with h1 | h2
    · exact List.mem_append_left _ ((mem_adjKeys_addToKey _ _ _ _).mpr (Or.inl h1))
    · exact List.mem_append_right _ ((mem_adjKeys_addToKey _ _ _ _).mpr (Or.inl h2))

theorem nodeKeys_touch_mono {g : Graph} {m n : String}
    (h : n ∈ nodeKeys g) : n ∈ nodeKeys (g.Touch m) := by
  unfold Graph.Touch
  split
  · exact h
  · unfold nodeKeys at h ⊢
    rcases List.mem_append.mp h with h1 | h2
    · exact List.mem_append_left _ ((mem_adjKeys_ensureKey _ _ _).mpr (Or.inl h1))
    · exact List.mem_append_right _ ((mem_adjKeys_ensureKey _ _ _).mpr (Or.inl h2))

theorem nodeKeys_touch_self {g : Graph} {n : String} (hn : n ≠ "") :
    n ∈ nodeKeys (g.Touch n) := by
  unfold Graph.Touch
  rw [if_neg hn]
  unfold nodeKeys
  exact List.mem_append_left _ ((mem_adjKeys_ensureKey _ _ _).mpr (Or.inr rfl))

theorem nodeKeys_addEdge_cases {g : Graph} {frm dst n : String}
    (h : n ∈ nodeKeys (g.AddEdge frm dst)) :
    n ∈ nodeKeys g ∨ n = frm ∨ n = dst := by
  unfold Graph.AddEdge at h
  split at h
  · exact Or.inl h
  · unfold nodeKeys at h ⊢
    rcases List.mem_append.mp h with h1 | h2
    · rcases (mem_adjKeys_addToKey _ _ _ _).mp h1 with h1' | h1'
      · exact Or.inl (List.mem_append_left _ h1')
      · exact Or.inr (Or.inl h1')
    · rcases (mem_adjKeys_addToKey _ _ _ _).mp h2 with h2' | h2'
      · exact Or.inl (List.mem_append_right _ h2')
      · exact Or.inr (Or.inr h2')

theorem nodeKeys_touch_cases {g : Graph} {m n : String}
    (h : n ∈ nodeKeys (g.Touch m)) : n ∈ nodeKeys g ∨ n = m := by
  unfold Graph.Touch at h
  split at h
  · exact Or.inl h
  · unfold nodeKeys at h ⊢
    rcases List.mem_append.mp h with h1 | h2
    · rcases (mem_adjKeys_ensureKey _ _ _).mp h1 with h1' | h1'
      · exact Or.inl (List.mem_append_left _ h1')
      · exact Or.inr h1'
    · rcases (mem_adjKeys_ensureKey _ _ _).mp h2 with h2' | h2'
      · exact Or.inl (List.mem_append_right _ h2')
      · exact Or.inr h2'

/-! ## FS-membership lemmas -/

theorem lookupStr_isSome_mem_keys {l : List (String × String)} {p : String}
    (h : (lookupStr l p).isSome = true) : p ∈ l.map Prod.fst := by
  induction l with
  | nil => simp [lookupStr] at h
  | cons hd tl ih =>
    obtain ⟨k, v⟩ := hd
    by_cases hk : k = p
    · subst hk; simp
    · rw [lookupStr, if_neg hk] at h
      simp only [List.map_cons, List.mem_cons]
      exact Or.inr (ih h)

theorem statFile_eq_true_iff {fs : FS} {p : String} :
    statFile fs p = true ↔
      p ∉ fs.dirs ∧ (lookupStr fs.files p).isSome = true := by
  unfold statFile statGo
  by_cases hd : p ∈ fs.dirs
  · simp [hd]
  · by_cases hl : (lookupStr fs.files p).isSome = true
    · simp [hd, hl]
    · simp [hd, hl]

theorem statFile_mem_files {fs : FS} {p : String} (h : statFile fs p = true) :
    p ∈ fs.files.map Prod.fst :=
  lookupStr_isSome_mem_keys (statFile_eq_true_iff.mp h).2

theorem statFile_readFile_isSome {fs : FS} {p : String}
    (h : statFile fs p = true) : (readFileGo fs p).isSome = true := by
  obtain ⟨hd, hl⟩ := statFile_eq_true_iff.mp h
  unfold readFileGo
  rw [if_neg hd]
  exact hl

theorem fileExists_mem {fs : FS} {p : String} (h : fileExists fs p = true) :
    p ∈ fs.files.map Prod.fst ∨ p ∈ fs.dirs := by
  unfold fileExists statGo at h
  split at h
  · right; assumption
  · split at h
    · left
      exact lookupStr_isSome_mem_keys (by assumption)
    · simp at h

/-! ## The two entry-driven builders -/

/-- Modelled from the spec: `scan.Entry` is used by the builders but its
declaration is not among the provided sources; per §3 it is
`{Name: string, Path: absolute path}`. -/
structure Entry where
  Name : String
  Path : String

/-- The per-path work of a `scan.BuildGraphFromEntries` worker: read the
file (silently skipping errors), `Touch` it, and for each extracted
specifier that resolves, `AddEdge`; a relative specifier whose target is
an existing regular file is a candidate for enqueueing. -/
def scanHandle (fs : FS) (pi : String → List String) (g : Graph)
    (path : String) : Graph × List String :=
  match readFileGo fs path with
  | none => (g, [])
  | some data =>
    (pi data).foldl (fun (acc : Graph × List String) spec =>
      match Resolve fs path spec with
      | none => acc
      | some dst =>
        if isRelativeImport spec && statFile fs dst then
          (acc.1.AddEdge path dst, acc.2 ++ [dst])
        else (acc.1.AddEdge path dst, acc.2)) (g.Touch path, [])

/-- The graph-independent list of targets enqueued while processing
`path` in the scan builder. -/
def scanOuts (fs : FS) (pi : String → List String) (path : String) :
    List String :=
  match readFileGo fs path with
  | none => []
  | some data =>
    (pi data).foldl (fun (acc : List String) spec =>
      match Resolve fs path spec with
      | none => acc
      | some dst =>
        if isRelativeImport spec && statFile fs dst then acc ++ [dst]
        else acc) []

/-- The per-path work of a `tsgraph.BuildComponentGraphFromEntriesProgress`
worker: read and parse the file, `Touch` it, and for each JSX identifier
that resolves through the import map to a non-empty target, `AddEdge` and
enqueue the target. -/
def compHandle (fs : FS) (parse : String → String → Option FileInfo)
    (g : Graph) (path : String) : Graph × List String :=
  match readFileGo fs path with
  | none => (g, [])
  | some data =>
    match parse path data with
    | none => (g, [])
    | some fi =>
      fi.JSXIdentifiers.foldl (fun (acc : Graph × List String) ident =>
        if ResolveImportedComponent fs path fi.ImportMap ident ≠ "" then
          (acc.1.AddEdge path (ResolveImportedComponent fs path fi.ImportMap ident),
           acc.2 ++ [ResolveImportedComponent fs path fi.ImportMap ident])
        else acc) (g.Touch path, [])

/-- The graph-independent list of targets enqueued while processing
`path` in the component builder. -/
def compOuts (fs : FS) (parse : String → String → Option FileInfo)
    (path : String) : List String :=
  match readFileGo fs path with
  | none => []
  | some data =>
    match parse path data with
    | none => []
    | some fi =>
      fi.JSXIdentifiers.foldl (fun (acc : List String) ident =>
        if ResolveImportedComponent fs path fi.ImportMap ident ≠ "" then
          acc ++ [ResolveImportedComponent fs path fi.ImportMap ident]
        else acc) []

/-- Seed computation shared by both builders: entries are made absolute
against the workspace root. -/
def seedPath (root : String) (p : String) : String :=
  if isAbsGo p then p else cleanGo (joinGo root p)

/-- Seeds of the scan builder. -/
def scanSeeds (root : String) (entries : List Entry) : List String :=
  entries.map (fun e => seedPath root e.Path)

/-- Seeds of the component builder (its entries are plain paths). -/
def compSeeds (root : String) (entries : List String) : List String :=
  entries.map (seedPath root)

/-- Everything the scan builder can ever enqueue: seeds plus regular
files. -/
def scanPotential (fs : FS) (seeds : List String) : List String :=
  seeds ++ fs.files.map Prod.fst

/-- Everything the component builder can ever enqueue: seeds plus any
path `os.Stat` accepts. -/
def compPotential (fs : FS) (seeds : List String) : List String :=
  seeds ++ fs.files.map Prod.fst ++ fs.dirs

/-- The initial builder state: the seeds enqueued into an empty state. -/
def initState (seeds : List String) : BuildState :=
  enqueueAll ⟨Graph.new, [], []⟩ seeds

/-- `scan.BuildGraphFromEntries`, sequentially: seed, then drain the
queue. -/
def scanRun (fs : FS) (pi : String → List String) (root : String)
    (entries : List Entry) : BuildState :=
  runQueue (scanHandle fs pi)
    (engineMeasure (scanPotential fs (scanSeeds root entries))
      (initState (scanSeeds root entries)) + 1)
    (initState (scanSeeds root entries))

/-- `tsgraph.BuildComponentGraphFromEntriesProgress`, sequentially: seed,
then drain the queue. -/
def compRun (fs : FS) (parse : String → String → Option FileInfo)
    (root : String) (entries : List String) : BuildState :=
  runQueue (compHandle fs parse)
    (engineMeasure (compPotential fs (compSeeds root entries))
      (initState (compSeeds root entries)) + 1)
    (initState (compSeeds root entries))

/-! ### Scan-handler lemmas -/

theorem scanHandle_fold_snd (fs : FS) (path : String) :
    ∀ (specs : List String) (g0 : Graph) (acc : List String),
      (specs.foldl (fun (acc : Graph × List String) spec =>
        match Resolve fs path spec with
        | none => acc
        | some dst =>
          if isRelativeImport spec && statFile fs dst then
            (acc.1.AddEdge path dst, acc.2 ++ [dst])
          else (acc.1.AddEdge path dst, acc.2)) (g0, acc)).2 =
      specs.foldl (fun (acc : List String) spec =>
        match Resolve fs path spec with
        | none => acc
        | some dst =>
          if isRelativeImport spec && statFile fs dst then acc ++ [dst]
          else acc) acc := by
  intro specs
  induction specs with
  | nil => intro g0 acc; rfl
  | cons spec rest ih =>
    intro g0 acc
    simp only [List.foldl_cons]
    cases hres : Resolve fs path spec with
    | none => exact ih g0 acc
    | some dst =>
      by_cases hc : (isRelativeImport spec && statFile fs dst) = true
      · simp only [hc, if_true]
        exact ih _ _
      · simp only [hc, if_false]
        exact ih _ _

theorem scanHandle_snd (fs : FS) (pi : String → List String) (g : Graph)
    (path : String) :
    (scanHandle fs pi g path).2 = scanOuts fs pi path := by
  unfold scanHandle scanOuts
  cases hr : readFileGo fs path with
  | none => rfl
  | some data => exact scanHandle_fold_snd fs path (pi data) (g.Touch path) []

theorem scanHandle_fold_keys (fs : FS) (path n : String) :
    ∀ (specs : List String) (acc : Graph × List String),
      n ∈ nodeKeys acc.1 →
      n ∈ nodeKeys ((specs.foldl (fun (acc : Graph × List String) spec =>
        match Resolve fs path spec with
        | none => acc
        | some dst =>
          if isRelativeImport spec && statFile fs dst then
            (acc.1.AddEdge path dst, acc.2 ++ [dst])
          else (acc.1.AddEdge path dst, acc.2)) acc).1) := by
  intro specs
  induction specs with
  | nil => intro acc h; exact h
  | cons spec rest ih =>
    intro acc h
    simp only [List.foldl_cons]
    cases hres : Resolve fs path spec with
    | none => exact ih acc h
    | some dst =>
      by_cases hc : (isRelativeImport spec && statFile fs dst) = true
      · simp only [hc, if_true]
        exact ih _ (nodeKeys_addEdge_mono h)
      · simp only [hc, if_false]
        exact ih _ (nodeKeys_addEdge_mono h)

theorem scanHandle_keys_mono (fs : FS) (pi : String → List String)
    (g : Graph) (path n : String) (h : n ∈ nodeKeys g) :
    n ∈ nodeKeys (scanHandle fs pi g path).1 := by
  unfold scanHandle
  cases hr : readFileGo fs path with
  | none => exact h
  | some data =>
    exact scanHandle_fold_keys fs path n (pi data) _ (nodeKeys_touch_mono h)

theorem scanHandle_touch (fs : FS) (pi : String → List String) (g : Graph)
    (path : String) (hne : path ≠ "")
    (hread : (readFileGo fs path).isSome = true) :
    path ∈ nodeKeys (scanHandle fs pi g path).1 := by
  unfold scanHandle
  cases hr : readFileGo fs path with
  | none => rw [hr] at hread; simp at hread
  | some data =>
    exact scanHandle_fold_keys fs path path (pi data) _ (nodeKeys_touch_self hne)

theorem scanOuts_fold_statFile (fs : FS) (path : String) :
    ∀ (specs : List String) (acc : List String),
      (∀ x ∈ acc, statFile fs x = true) →
      ∀ t ∈ specs.foldl (fun (acc : List String) spec =>
        match Resolve fs path spec with
        | none => acc
        | some dst =>
          if isRelativeImport spec && statFile fs dst then acc ++ [dst]
          else acc) acc, statFile fs t = true := by
  intro specs
  induction specs with
  | nil => intro acc h; exact h
  | cons spec rest ih =>
    intro acc h
    simp only [List.foldl_cons]
    cases hres : Resolve fs path spec with
    | none => exact ih acc h
    | some dst =>
      by_cases hc : (isRelativeImport spec && statFile fs dst) = true
      · simp only [hc, if_true]
        refine ih _ ?_
        intro x hx
        rcases List.mem_append.mp hx with hxl | hxr
        · exact h x hxl
        · rw [List.mem_singleton] at hxr
          subst hxr
          exact (Bool.and_eq_true _ _ |>.mp hc).2
      · simp only [hc, if_false]
        exact ih acc h

theorem scanOuts_statFile (fs : FS) (pi : String → List String)
    (path t : String) (h : t ∈ scanOuts fs pi path) :
    statFile fs t = true := by
  unfold scanOuts at h
  revert h
  cases hr : readFileGo fs path with
  | none => intro h; exact absurd h (List.not_mem_nil t)
  | some data =>
    intro h
    exact scanOuts_fold_statFile fs path (pi data) [] (by simp) t h

/-! ### Component-handler lemmas -/


theorem probeComponent_fileExists {fs : FS} {cand p : String}
    (h : probeComponent fs cand = some p) : fileExists fs p = true := by
  unfold probeComponent at h
  split_ifs at h with h1 h2
  · exact List.find?_some h
  · rw [Option.some_inj] at h
    subst h
    exact h2

theorem probeComponentIndex_fileExists {fs : FS} {cand p : String}
    (h : probeComponentIndex fs cand = some p) : fileExists fs p = true := by
  unfold probeComponentIndex at h
  exact List.find?_some h

theorem resolveImported_fileExists (fs : FS) (cur : String)
    (im : List (String × String)) (ident : String)
    (h : ResolveImportedComponent fs cur im ident ≠ "") :
    fileExists fs (ResolveImportedComponent fs cur im ident) = true := by
  unfold ResolveImportedComponent at h ⊢
  cases hlk : lookupStr im ident with
  | none => rw [hlk] at h; exact absurd rfl h
  | some mod =>
    rw [hlk] at h
    have h2 : (if (strHasPref mod "./" || strHasPref mod "../" ||
          strHasPref mod "/") = true then
        match probeComponent fs (cleanGo (joinGo (dirGo cur) mod)) with
        | some p => p
        | none =>
          match probeComponentIndex fs (cleanGo (joinGo (dirGo cur) mod)) with
          | some p => p
          | none => ""
      else "") ≠ "" := h
    show fileExists fs (if (strHasPref mod "./" || strHasPref mod "../" ||
          strHasPref mod "/") = true then
        match probeComponent fs (cleanGo (joinGo (dirGo cur) mod)) with
        | some p => p
        | none =>
          match probeComponentIndex fs (cleanGo (joinGo (dirGo cur) mod)) with
          | some p => p
          | none => ""
      else "") = true
    by_cases hpre :
        (strHasPref mod "./" || strHasPref mod "../" || strHasPref mod "/") = true
    · rw [if_pos hpre] at h2 ⊢
      cases hpc : probeComponent fs (cleanGo (joinGo (dirGo cur) mod)) with
      | some p => exact probeComponent_fileExists hpc
      | none =>
        rw [hpc] at h2
        cases hpi : probeComponentIndex fs (cleanGo (joinGo (dirGo cur) mod)) with
        | some p => exact probeComponentIndex_fileExists hpi
        | none =>
          rw [hpi] at h2
          exact absurd rfl h2
    · rw [if_neg hpre] at h2
      exact absurd rfl h2

theorem compHandle_fold_snd (fs : FS) (path : String)
    (im : List (String × String)) :
    ∀ (idents : List String) (g0 : Graph) (acc : List String),
      (idents.foldl (fun (acc : Graph × List String) ident =>
        if ResolveImportedComponent fs path im ident ≠ "" then
          (acc.1.AddEdge path (ResolveImportedComponent fs path im ident),
           acc.2 ++ [ResolveImportedComponent fs path im ident])
        else acc) (g0, acc)).2 =
      idents.foldl (fun (acc : List String) ident =>
        if ResolveImportedComponent fs path im ident ≠ "" then
          acc ++ [ResolveImportedComponent fs path im ident]
        else acc) acc := by
  intro idents
  induction idents with
  | nil => intro g0 acc; rfl
  | cons ident rest ih =>
    intro g0 acc
    simp only [List.foldl_cons]
    by_cases hc : ResolveImportedComponent fs path im ident = ""
    · rw [if_neg (not_not_intro hc), if_neg (not_not_intro hc)]
      exact ih g0 acc
    · rw [if_pos hc, if_pos hc]
      exact ih _ _

theorem compHandle_snd (fs : FS) (parse : String → String → Option FileInfo)
    (g : Graph) (path : String) :
    (compHandle fs parse g path).2 = compOuts fs parse path := by
  unfold compHandle compOuts
  cases hr : readFileGo fs path with
  | none => rfl
  | some data =>
    show (match parse path data with
      | none => (g, [])
      | some fi => fi.JSXIdentifiers.foldl (fun (acc : Graph × List String) ident =>
          if ResolveImportedComponent fs path fi.ImportMap ident ≠ "" then
            (acc.1.AddEdge path (ResolveImportedComponent fs path fi.ImportMap ident),
             acc.2 ++ [ResolveImportedComponent fs path fi.ImportMap ident])
          else acc) (g.Touch path, [])).2 =
      (match parse path data with
      | none => []
      | some fi => fi.JSXIdentifiers.foldl (fun (acc : List String) ident =>
          if ResolveImportedComponent fs path fi.ImportMap ident ≠ "" then
            acc ++ [ResolveImportedComponent fs path fi.ImportMap ident]
          else acc) [])
    cases hp : parse path data with
    | none => rfl
    | some fi =>
      exact compHandle_fold_snd fs path fi.ImportMap fi.JSXIdentifiers
        (g.Touch path) []

theorem compHandle_fold_keys (fs : FS) (path n : String)
    (im : List (String × String)) :
    ∀ (idents : List String) (acc : Graph × List String),
      n ∈ nodeKeys acc.1 →
      n ∈ nodeKeys ((idents.foldl (fun (acc : Graph × List String) ident =>
        if ResolveImportedComponent fs path im ident ≠ "" then
          (acc.1.AddEdge path (ResolveImportedComponent fs path im ident),
           acc.2 ++ [ResolveImportedComponent fs path im ident])
        else acc) acc).1) := by
  intro idents
  induction idents with
  | nil => intro acc h; exact h
  | cons ident rest ih =>
    intro acc h
    simp only [List.foldl_cons]
    by_cases hc : ResolveImportedComponent fs path im ident = ""
    · rw [if_neg (not_not_intro hc)]
      exact ih acc h
    · rw [if_pos hc]
      exact ih _ (nodeKeys_addEdge_mono h)

theorem compHandle_keys_mono (fs : FS)
    (parse : String → String → Option FileInfo) (g : Graph)
    (path n : String) (h : n ∈ nodeKeys g) :
    n ∈ nodeKeys (compHandle fs parse g path).1 := by
  unfold compHandle
  cases hr : readFileGo fs path with
  | none => exact h
  | some data =>
    show n ∈ nodeKeys ((match parse path data with
      | none => (g, [])
      | some fi => fi.JSXIdentifiers.foldl (fun (acc : Graph × List String) ident =>
          if ResolveImportedComponent fs path fi.ImportMap ident ≠ "" then
            (acc.1.AddEdge path (ResolveImportedComponent fs path fi.ImportMap ident),
             acc.2 ++ [ResolveImportedComponent fs path fi.ImportMap ident])
          else acc) (g.Touch path, [])).1)
    cases hp : parse path data with
    | none => exact h
    | some fi =>
      exact compHandle_fold_keys fs path n fi.ImportMap fi.JSXIdentifiers _
        (nodeKeys_touch_mono h)

theorem compHandle_touch (fs : FS)
    (parse : String → String → Option FileInfo) (g : Graph) (path : String)
    (hne : path ≠ "") {data : String} (hread : readFileGo fs path = some data)
    (hparse : (parse path data).isSome = true) :
    path ∈ nodeKeys (compHandle fs parse g path).1 := by
  unfold compHandle
  rw [hread]
  show path ∈ nodeKeys ((match parse path data with
    | none => (g, [])
    | some fi => fi.JSXIdentifiers.foldl (fun (acc : Graph × List String) ident =>
        if ResolveImportedComponent fs path fi.ImportMap ident ≠ "" then
          (acc.1.AddEdge path (ResolveImportedComponent fs path fi.ImportMap ident),
           acc.2 ++ [ResolveImportedComponent fs path fi.ImportMap ident])
        else acc) (g.Touch path, [])).1)
  cases hp : parse path data with
  | none => rw [hp] at hparse; simp at hparse
  | some fi =>
    exact compHandle_fold_keys fs path path fi.ImportMap fi.JSXIdentifiers _
      (nodeKeys_touch_self hne)

theorem compOuts_fold_fileExists (fs : FS) (path : String)
    (im : List (String × String)) :
    ∀ (idents : List String) (acc : List String),
      (∀ x ∈ acc, fileExists fs x = true) →
      ∀ t ∈ idents.foldl (fun (acc : List String) ident =>
        if ResolveImportedComponent fs path im ident ≠ "" then
          acc ++ [ResolveImportedComponent fs path im ident]
        else acc) acc,
        fileExists fs t = true := by
  intro idents
  induction idents with
  | nil => intro acc h; exact h
  | cons ident rest ih =>
    intro acc h
    simp only [List.foldl_cons]
    by_cases hc : ResolveImportedComponent fs path im ident = ""
    · rw [if_neg (not_not_intro hc)]
      exact ih acc h
    · rw [if_pos hc]
      refine ih _ ?_
      intro x hx
      rcases List.mem_append.mp hx with hxl | hxr
      · exact h x hxl
      · rw [List.mem_singleton] at hxr
        subst hxr
        exact resolveImported_fileExists fs path im ident hc

theorem compOuts_fileExists (fs : FS)
    (parse : String → String → Option FileInfo) (path t : String)
    (h : t ∈ compOuts fs parse path) : fileExists fs t = true := by
  unfold compOuts at h
  revert h
  cases hr : readFileGo fs path with
  | none => intro h; exact absurd h (List.not_mem_nil t)
  | some data =>
    show t ∈ (match parse path data with
      | none => []
      | some fi => fi.JSXIdentifiers.foldl (fun (acc : List String) ident =>
          if ResolveImportedComponent fs path fi.ImportMap ident ≠ "" then
            acc ++ [ResolveImportedComponent fs path fi.ImportMap ident]
          else acc) []) → fileExists fs t = true
    cases hp : parse path data with
    | none => intro h; exact absurd h (List.not_mem_nil t)
    | some fi =>
      intro h
      exact compOuts_fold_fileExists fs path fi.ImportMap fi.JSXIdentifiers []
        (by simp) t h

/-! ### Initial-state facts and builder specifications -/

theorem initState_g (seeds : List String) : (initState seeds).g = Graph.new :=
  enqueueAll_g seeds _

theorem initState_nodup (seeds : List String) :
    (initState seeds).visited.Nodup :=
  enqueueAll_nodup seeds _ List.nodup_nil

theorem initState_queue_sub (seeds : List String) :
    ∀ q ∈ (initState seeds).queue, q ∈ (initState seeds).visited :=
  enqueueAll_queue_sub_vis seeds _ (by intro q hq; exact absurd hq (List.not_mem_nil q))

theorem initState_vis_queue (seeds : List String) :
    ∀ x ∈ (initState seeds).visited, x ∈ (initState seeds).queue := by
  intro x hx
  rcases enqueueAll_vis_cases seeds _ x hx with h | h
  · exact absurd h (List.not_mem_nil x)
  · exact h

theorem initState_seeds_mem (seeds : List String) :
    ∀ s ∈ seeds, s ∈ (initState seeds).visited :=
  enqueueAll_vis_mem seeds _

theorem initState_vis_in_P {P : List String} (seeds : List String)
    (h : ∀ s ∈ seeds, s ∈ P) :
    ∀ x ∈ (initState seeds).visited, x ∈ P :=
  enqueueAll_vis_in_P seeds _ (by intro x hx; exact absurd hx (List.not_mem_nil x)) h

theorem mem_nodes_of_nodeKeys {g : Graph} {n : String}
    (h : n ∈ nodeKeys g) : n ∈ g.Nodes := by
  rw [mem_nodes_iff]
  exact List.mem_append.mp h

/-- Instantiation of the engine specification for the scan builder. -/
theorem scanRun_spec (fs : FS) (pi : String → List String) (root : String)
    (entries : List Entry) :
    (scanRun fs pi root entries).queue = [] ∧
    (scanRun fs pi root entries).visited.Nodup ∧
    (∀ s ∈ scanSeeds root entries, s ∈ (scanRun fs pi root entries).visited) ∧
    (∀ x ∈ (scanRun fs pi root entries).visited,
      ∀ t ∈ scanOuts fs pi x, t ∈ (scanRun fs pi root entries).visited) ∧
    (∀ x ∈ (scanRun fs pi root entries).visited,
      x ≠ "" → (readFileGo fs x).isSome = true →
        x ∈ nodeKeys (scanRun fs pi root entries).g) := by
  obtain ⟨r1, r2, r3, r4, r5, r6, r7⟩ :=
    runQueue_spec (scanHandle fs pi) (scanPotential fs (scanSeeds root entries))
      (scanOuts fs pi)
      (fun p => p ≠ "" ∧ (readFileGo fs p).isSome = true)
      (fun _ => True)
      (fun g p => scanHandle_snd fs pi g p)
      (fun p t ht => by
        unfold scanPotential
        exact List.mem_append_right _ (statFile_mem_files (scanOuts_statFile fs pi p t ht)))
      (fun g p n h => scanHandle_keys_mono fs pi g p n h)
      (fun g p hp => scanHandle_touch fs pi g p hp.1 hp.2)
      (fun _ _ _ _ => trivial)
      (engineMeasure (scanPotential fs (scanSeeds root entries))
        (initState (scanSeeds root entries)) + 1)
      (initState (scanSeeds root entries))
      (Nat.lt_succ_self _)
      (initState_nodup _)
      (initState_queue_sub _)
      (initState_vis_in_P _ (fun s hs => by
        unfold scanPotential
        exact List.mem_append_left _ hs))
      (fun x hx => Or.inl (initState_vis_queue _ x hx))
      (fun x hx => Or.inl (initState_vis_queue _ x hx))
      trivial
  refine ⟨r1, r2, ?_, ?_, ?_⟩
  · intro s hs
    exact r3 (initState_seeds_mem _ s hs)
  · exact r5
  · intro x hx hne hread
    exact r6 x hx ⟨hne, hread⟩

/-- Instantiation of the engine specification for the component builder,
generic in an extra handler-preserved graph property `Φ`. -/
theorem compRun_spec (fs : FS) (parse : String → String → Option FileInfo)
    (root : String) (entries : List String) (Φ : Graph → Prop)
    (hphi : ∀ g p, p ∈ compPotential fs (compSeeds root entries) →
      Φ g → Φ (compHandle fs parse g p).1)
    (hphi0 : Φ Graph.new) :
    (compRun fs parse root entries).queue = [] ∧
    (compRun fs parse root entries).visited.Nodup ∧
    (∀ s ∈ compSeeds root entries, s ∈ (compRun fs parse root entries).visited) ∧
    (∀ x ∈ (compRun fs parse root entries).visited,
      ∀ t ∈ compOuts fs parse x, t ∈ (compRun fs parse root entries).visited) ∧
    (∀ x ∈ (compRun fs parse root entries).visited,
      x ≠ "" → ∀ data, readFileGo fs x = some data → (parse x data).isSome = true →
        x ∈ nodeKeys (compRun fs parse root entries).g) ∧
    Φ (compRun fs parse root entries).g := by
  obtain ⟨r1, r2, r3, r4, r5, r6, r7⟩ :=
    runQueue_spec (compHandle fs parse)
      (compPotential fs (compSeeds root entries))
      (compOuts fs parse)
      (fun p => p ≠ "" ∧ ∃ data, readFileGo fs p = some data ∧
        (parse p data).isSome = true)
      Φ
      (fun g p => compHandle_snd fs parse g p)
      (fun p t ht => by
        unfold compPotential
        rcases fileExists_mem (compOuts_fileExists fs parse p t ht) with h | h
        · exact List.mem_append_left _ (List.mem_append_right _ h)
        · exact List.mem_append_right _ h)
      (fun g p n h => compHandle_keys_mono fs parse g p n h)
      (fun g p hp => by
        obtain ⟨hne, data, hread, hparse⟩ := hp
        exact compHandle_touch fs parse g p hne hread hparse)
      hphi
      (engineMeasure (compPotential fs (compSeeds root entries))
        (initState (compSeeds root entries)) + 1)
      (initState (compSeeds root entries))
      (Nat.lt_succ_self _)
      (initState_nodup _)
      (initState_queue_sub _)
      (initState_vis_in_P _ (fun s hs => by
        unfold compPotential
        exact List.mem_append_left _ (List.mem_append_left _ hs)))
      (fun x hx => Or.inl (initState_vis_queue _ x hx))
      (fun x hx => Or.inl (initState_vis_queue _ x hx))
      (by rw [initState_g]; exact hphi0)
  refine ⟨r1, r2, ?_, ?_, ?_, r7⟩
  · intro s hs
    exact r3 (initState_seeds_mem _ s hs)
  · exact r5
  · intro x hx hne data hread hparse
    exact r6 x hx ⟨hne, data, hread, hparse⟩

/-! ## Claim theorems: the entry-driven builders -/

/-- Files reachable from the scan builder's seeds through resolved
relative imports of readable files. -/
inductive ScanReach (fs : FS) (pi : String → List String)
    (seeds : List String) : String → Prop where
  | seed {p : String} : p ∈ seeds → ScanReach fs pi seeds p
  | step {p t : String} : ScanReach fs pi seeds p → t ∈ scanOuts fs pi p →
      ScanReach fs pi seeds t

/-- Files reachable from the component builder's seeds through JSX
identifiers resolved to local files. -/
inductive CompReach (fs : FS) (parse : String → String → Option FileInfo)
    (seeds : List String) : String → Prop where
  | seed {p : String} : p ∈ seeds → CompReach fs parse seeds p
  | step {p t : String} : CompReach fs parse seeds p →
      t ∈ compOuts fs parse p → CompReach fs parse seeds t

/-- C2: both entry-driven builders, run sequentially with the shared
queue/visited protocol, drain their queue completely (the last processed
item closes it) even when the import relation contains cycles, enqueue
each path at most once (the visited list stays duplicate-free), and visit
every file reachable from the entries; every reachable path that is
readable (and parseable, for the component builder) is a node of the
returned graph. -/
theorem c2_builders_terminate_and_cover (fs : FS) (pi : String → List String)
    (parse : String → String → Option FileInfo) (root : String)
    (entriesS : List Entry) (entriesC : List String) :
    (scanRun fs pi root entriesS).queue = [] ∧
    (scanRun fs pi root entriesS).visited.Nodup ∧
    (∀ p, ScanReach fs pi (scanSeeds root entriesS) p →
      p ∈ (scanRun fs pi root entriesS).visited ∧
      (p ≠ "" → (readFileGo fs p).isSome = true →
        p ∈ (scanRun fs pi root entriesS).g.Nodes)) ∧
    (compRun fs parse root entriesC).queue = [] ∧
    (compRun fs parse root entriesC).visited.Nodup ∧
    (∀ p, CompReach fs parse (compSeeds root entriesC) p →
      p ∈ (compRun fs parse root entriesC).visited ∧
      (p ≠ "" → ∀ data, readFileGo fs p = some data →
        (parse p data).isSome = true →
        p ∈ (compRun fs parse root entriesC).g.Nodes)) := by
  obtain ⟨s1, s2, s3, s4, s5⟩ := scanRun_spec fs pi root entriesS
  obtain ⟨c1, c2, c3, c4, c5, _⟩ := compRun_spec fs parse root entriesC
    (fun _ => True) (fun _ _ _ _ => trivial) trivial
  refine ⟨s1, s2, ?_, c1, c2, ?_⟩
  · intro p hr
    have hvis : p ∈ (scanRun fs pi root entriesS).visited := by
      induction hr with
      | seed hs => exact s3 _ hs
      | step _ hout ih => exact s4 _ ih _ hout
    exact ⟨hvis, fun hne hread => mem_nodes_of_nodeKeys (s5 p hvis hne hread)⟩
  · intro p hr
    have hvis : p ∈ (compRun fs parse root entriesC).visited := by
      induction hr with
      | seed hs => exact c3 _ hs
      | step _ hout ih => exact c4 _ ih _ hout
    exact ⟨hvis, fun hne data hread hparse =>
      mem_nodes_of_nodeKeys (c5 p hvis hne data hread hparse)⟩

/-- The disk snapshot of the cycle scenario used as witness: `a.ts` and
`b.ts` import each other, `A.tsx` and `B.tsx` render each other. -/
def fsW : FS :=
  ⟨[("/ws/a.ts", "ca"), ("/ws/b.ts", "cb"),
    ("/ws/A.tsx", "sa"), ("/ws/B.tsx", "sb")], ["/ws"]⟩

/-- Import extraction for the witness scenario, keyed on file contents. -/
def piW : String → List String := fun content =>
  if content = "ca" then ["./b"]
  else if content = "cb" then ["./a"]
  else []

/-- Modelled from the spec: the tree-sitter extraction (not part of the
provided sources) on the witness scenario, per §3 `FileInfo`:
`A.tsx` pulls in `{B}` from `./B` and renders `<B/>`, and conversely. -/
def parseW : String → String → Option FileInfo := fun path content =>
  if content = "sa" then some ⟨path, ["A"], [("B", "./B")], ["B"]⟩
  else if content = "sb" then some ⟨path, ["B"], [("A", "./A")], ["A"]⟩
  else none

/-- Witness for C2 on the two-file cycles: both builders drain their
queues and the file reached through the cycle edge is visited and is a
node. -/
theorem c2_builders_terminate_and_cover_witness :
    (scanRun fsW piW "/ws" [⟨"A", "/ws/a.ts"⟩]).queue = [] ∧
    "/ws/b.ts" ∈ (scanRun fsW piW "/ws" [⟨"A", "/ws/a.ts"⟩]).visited ∧
    "/ws/b.ts" ∈ (scanRun fsW piW "/ws" [⟨"A", "/ws/a.ts"⟩]).g.Nodes ∧
    (compRun fsW parseW "/ws" ["/ws/A.tsx"]).queue = [] ∧
    "/ws/B.tsx" ∈ (compRun fsW parseW "/ws" ["/ws/A.tsx"]).visited ∧
    "/ws/B.tsx" ∈ (compRun fsW parseW "/ws" ["/ws/A.tsx"]).g.Nodes := by
  obtain ⟨s1, _, s3, c1, _, c6⟩ :=
    c2_builders_terminate_and_cover fsW piW parseW "/ws"
      [⟨"A", "/ws/a.ts"⟩] ["/ws/A.tsx"]
  have hreachS : ScanReach fsW piW (scanSeeds "/ws" [⟨"A", "/ws/a.ts"⟩]) "/ws/b.ts" :=
    @ScanReach.step fsW piW (scanSeeds "/ws" [⟨"A", "/ws/a.ts"⟩]) "/ws/a.ts" "/ws/b.ts"
      (@ScanReach.seed fsW piW (scanSeeds "/ws" [⟨"A", "/ws/a.ts"⟩]) "/ws/a.ts" (by decide))
      (by decide)
  have hreachC : CompReach fsW parseW (compSeeds "/ws" ["/ws/A.tsx"]) "/ws/B.tsx" :=
    @CompReach.step fsW parseW (compSeeds "/ws" ["/ws/A.tsx"]) "/ws/A.tsx" "/ws/B.tsx"
      (@CompReach.seed fsW parseW (compSeeds "/ws" ["/ws/A.tsx"]) "/ws/A.tsx" (by decide))
      (by decide)
  obtain ⟨hv1, hn1⟩ := s3 _ hreachS
  obtain ⟨hv2, hn2⟩ := c6 _ hreachC
  exact ⟨s1, hv1, hn1 (by decide) (by decide), c1, hv2,
    hn2 (by decide) "sb" (by decide) (by decide)⟩

/-- The disk snapshot of the JSX-edge scenario of the spec's §8 test 3:
`a.tsx` imports `{B}` from `./b` and renders `<B/>`; only `b.jsx` exists
beside it. -/
def fsC4 : FS :=
  ⟨[("/ws/a.tsx", "import { B } from './b'\nexport function A(){ return <B/> }"),
    ("/ws/b.jsx", "export function B(){ return null }")], ["/ws"]⟩

/-- Modelled from the spec: the tree-sitter extraction (not part of the
provided sources) on the §8 scenario files, per §3 `FileInfo`. -/
def parseC4 : String → String → Option FileInfo := fun path _ =>
  if path = "/ws/a.tsx" then
    some ⟨"/ws/a.tsx", ["A"], [("B", "./b")], ["B"]⟩
  else if path = "/ws/b.jsx" then
    some ⟨"/ws/b.jsx", ["B"], [], []⟩
  else none

/-- C4 evaluated at the failing input: `ResolveImportedComponent` probes
only `.tsx`/`.ts`, so the import of `./b` backed by `b.jsx` resolves to
the empty string, the component build produces NO edge
`a.tsx → b.jsx`, and the graph's only node is `a.tsx`. -/
theorem c4_jsx_edge_to_jsx_file_fails :
    ResolveImportedComponent fsC4 "/ws/a.tsx" [("B", "./b")] "B" = "" ∧
    ¬ adjMem (compRun fsC4 parseC4 "/ws" ["/ws/a.tsx"]).g.edges
      "/ws/a.tsx" "/ws/b.jsx" ∧
    (compRun fsC4 parseC4 "/ws" ["/ws/a.tsx"]).g.Nodes = ["/ws/a.tsx"] := by
  decide

theorem adjMem_new (a b : String) : ¬ adjMem Graph.new.edges a b := by
  simp [Graph.new, adjMem, lookupAdj]

/-- An edge of the component graph is accounted for by a JSX tag head
identifier of the source file that resolves to the target. -/
def CompEdgeProp (fs : FS) (parse : String → String → Option FileInfo)
    (a b : String) : Prop :=
  ∃ data fi ident, readFileGo fs a = some data ∧ parse a data = some fi ∧
    ident ∈ fi.JSXIdentifiers ∧
    ResolveImportedComponent fs a fi.ImportMap ident = b ∧ b ≠ ""

theorem compHandle_fold_edges (fs : FS) (path : String)
    (im : List (String × String)) (jsx : List String) :
    ∀ (idents : List String), (∀ i ∈ idents, i ∈ jsx) →
      ∀ (acc : Graph × List String) (a b : String),
      adjMem ((idents.foldl (fun (acc : Graph × List String) ident =>
        if ResolveImportedComponent fs path im ident ≠ "" then
          (acc.1.AddEdge path (ResolveImportedComponent fs path im ident),
           acc.2 ++ [ResolveImportedComponent fs path im ident])
        else acc) acc).1).edges a b →
      adjMem acc.1.edges a b ∨
        (a = path ∧ b ≠ "" ∧
          ∃ ident ∈ jsx, ResolveImportedComponent fs path im ident = b) := by
  intro idents
  induction idents with
  | nil => intro _ acc a b h; exact Or.inl h
  | cons ident rest ih =>
    intro hj acc a b h
    simp only [List.foldl_cons] at h
    by_cases hc : ResolveImportedComponent fs path im ident = ""
    · rw [if_neg (not_not_intro hc)] at h
      exact ih (fun i hi => hj i (List.mem_cons_of_mem _ hi)) acc a b h
    · rw [if_pos hc] at h
      rcases ih (fun i hi => hj i (List.mem_cons_of_mem _ hi)) _ a b h with hold | hnew
      · rcases adjMem_addEdge hold with ⟨rfl, rfl⟩ | hold2
        · exact Or.inr ⟨rfl, hc, ident, hj ident (List.mem_cons_self _ _), rfl⟩
        · exact Or.inl hold2
      · exact Or.inr hnew

theorem compHandle_edges (fs : FS) (parse : String → String → Option FileInfo)
    (g : Graph) (path : String) (a b : String)
    (h : adjMem (compHandle fs parse g path).1.edges a b) :
    adjMem g.edges a b ∨ CompEdgeProp fs parse a b := by
  unfold compHandle at h
  revert h
  cases hr : readFileGo fs path with
  | none => exact Or.inl
  | some data =>
    show adjMem ((match parse path data with
      | none => (g, [])
      | some fi => fi.JSXIdentifiers.foldl (fun (acc : Graph × List String) ident =>
          if ResolveImportedComponent fs path fi.ImportMap ident ≠ "" then
            (acc.1.AddEdge path (ResolveImportedComponent fs path fi.ImportMap ident),
             acc.2 ++ [ResolveImportedComponent fs path fi.ImportMap ident])
          else acc) (g.Touch path, [])).1).edges a b → _
    cases hp : parse path data with
    | none => exact Or.inl
    | some fi =>
      intro h
      rcases compHandle_fold_edges fs path fi.ImportMap fi.JSXIdentifiers
        fi.JSXIdentifiers (fun i hi => hi) _ a b h with hold | hnew
      · exact Or.inl (adjMem_touch hold)
      · obtain ⟨rfl, hb, ident, hjsx, hres⟩ := hnew
        exact Or.inr ⟨data, fi, ident, hr, hp, hjsx, hres, hb⟩

/-- C5 (amended): every edge of the graph returned by the component
builder is produced by some identifier that occurs among the source
file's JSX tag heads resolving to the edge's target; so an import binding
never used as a JSX tag head contributes no edge on its own, though the
edge may still exist when another, JSX-used identifier resolves to the
same file. -/
theorem c5_edges_only_from_jsx (fs : FS)
    (parse : String → String → Option FileInfo) (root : String)
    (entries : List String) (a b : String)
    (h : adjMem (compRun fs parse root entries).g.edges a b) :
    CompEdgeProp fs parse a b := by
  obtain ⟨_, _, _, _, _, hphi⟩ := compRun_spec fs parse root entries
    (fun g => ∀ a b, adjMem g.edges a b → CompEdgeProp fs parse a b)
    (fun g p _ hg a b hab => by
      rcases compHandle_edges fs parse g p a b hab with hold | hnew
      · exact hg a b hold
      · exact hnew)
    (fun a b hab => absurd hab (adjMem_new a b))
  exact hphi a b h

/-- The disk snapshot of the unused-binding scenario: `a.tsx` binds both
`B` and `Unused` to `./b`, uses only `<B/>`. -/
def fsC5 : FS := ⟨[("/ws/a.tsx", "s5a"), ("/ws/b.tsx", "s5b")], ["/ws"]⟩

/-- The `FileInfo` of `a.tsx` in the unused-binding scenario. -/
def fiC5 : FileInfo :=
  ⟨"/ws/a.tsx", ["A"], [("B", "./b"), ("Unused", "./b")], ["B"]⟩

/-- Modelled from the spec: the tree-sitter extraction (not part of the
provided sources) on the unused-binding scenario. -/
def parseC5 : String → String → Option FileInfo := fun path _ =>
  if path = "/ws/a.tsx" then some fiC5
  else if path = "/ws/b.tsx" then some ⟨"/ws/b.tsx", ["B"], [], []⟩
  else none

/-- C5 (counterexample): `Unused` is bound by the import map to `./b`
and never occurs as a JSX tag head, yet the returned graph DOES contain
an edge from `a.tsx` to the file `./b` resolves to, because the used
identifier `B` is bound to the same module. -/
theorem c5_unused_binding_counterexample :
    lookupStr fiC5.ImportMap "Unused" = some "./b" ∧
    "Unused" ∉ fiC5.JSXIdentifiers ∧
    ResolveImportedComponent fsC5 "/ws/a.tsx" fiC5.ImportMap "Unused" =
      "/ws/b.tsx" ∧
    adjMem (compRun fsC5 parseC5 "/ws" ["/ws/a.tsx"]).g.edges
      "/ws/a.tsx" "/ws/b.tsx" := by
  decide

/-- Witness for C5's amended theorem at the unused-binding scenario. -/
theorem c5_edges_only_from_jsx_witness :
    CompEdgeProp fsC5 parseC5 "/ws/a.tsx" "/ws/b.tsx" :=
  c5_edges_only_from_jsx fsC5 parseC5 "/ws" ["/ws/a.tsx"]
    "/ws/a.tsx" "/ws/b.tsx" (by decide)

theorem compHandle_fold_keys_cases (fs : FS) (g : Graph) (path : String)
    (im : List (String × String)) :
    ∀ (idents : List String) (acc : Graph × List String),
      (∀ n ∈ nodeKeys acc.1, n ∈ nodeKeys g ∨ n = path ∨ fileExists fs n = true) →
      ∀ n ∈ nodeKeys ((idents.foldl (fun (acc : Graph × List String) ident =>
        if ResolveImportedComponent fs path im ident ≠ "" then
          (acc.1.AddEdge path (ResolveImportedComponent fs path im ident),
           acc.2 ++ [ResolveImportedComponent fs path im ident])
        else acc) acc).1),
        n ∈ nodeKeys g ∨ n = path ∨ fileExists fs n = true := by
  intro idents
  induction idents with
  | nil => intro acc h; exact h
  | cons ident rest ih =>
    intro acc h
    simp only [List.foldl_cons]
    by_cases hc : ResolveImportedComponent fs path im ident = ""
    · rw [if_neg (not_not_intro hc)]
      exact ih acc h
    · rw [if_pos hc]
      refine ih _ ?_
      intro n hn
      rcases nodeKeys_addEdge_cases hn with h1 | h1 | h1
      · exact h n h1
      · exact Or.inr (Or.inl h1)
      · subst h1
        exact Or.inr (Or.inr (resolveImported_fileExists fs path im ident hc))

theorem compHandle_keys_cases (fs : FS)
    (parse : String → String → Option FileInfo) (g : Graph) (path : String) :
    ∀ n ∈ nodeKeys (compHandle fs parse g path).1,
      n ∈ nodeKeys g ∨ n = path ∨ fileExists fs n = true := by
  unfold compHandle
  cases hr : readFileGo fs path with
  | none => exact fun n hn => Or.inl hn
  | some data =>
    show ∀ n ∈ nodeKeys ((match parse path data with
      | none => (g, [])
      | some fi => fi.JSXIdentifiers.foldl (fun (acc : Graph × List String) ident =>
          if ResolveImportedComponent fs path fi.ImportMap ident ≠ "" then
            (acc.1.AddEdge path (ResolveImportedComponent fs path fi.ImportMap ident),
             acc.2 ++ [ResolveImportedComponent fs path fi.ImportMap ident])
          else acc) (g.Touch path, [])).1), _
    cases hp : parse path data with
    | none => exact fun n hn => Or.inl hn
    | some fi =>
      apply compHandle_fold_keys_cases fs g path fi.ImportMap fi.JSXIdentifiers
      intro n hn
      rcases nodeKeys_touch_cases hn with h1 | h1
      · exact Or.inl h1
      · exact Or.inr (Or.inl h1)

/-- C10: every node of a graph produced by the component builder is
either a seed or a path `os.Stat` accepts on the modelled disk; under the
assumption that no seed, file or directory path starts with `pkg:`, no
`pkg:` node ever appears. -/
theorem c10_component_nodes_local (fs : FS)
    (parse : String → String → Option FileInfo) (root : String)
    (entries : List String)
    (hseeds : ∀ p ∈ compSeeds root entries, strHasPref p "pkg:" = false)
    (hfiles : ∀ p ∈ fs.files.map Prod.fst, strHasPref p "pkg:" = false)
    (hdirs : ∀ p ∈ fs.dirs, strHasPref p "pkg:" = false) :
    ∀ n ∈ (compRun fs parse root entries).g.Nodes,
      strHasPref n "pkg:" = false := by
  obtain ⟨_, _, _, _, _, hphi⟩ := compRun_spec fs parse root entries
    (fun g => ∀ n ∈ nodeKeys g, n ∈ compPotential fs (compSeeds root entries))
    (fun g p hp hg n hn => by
      rcases compHandle_keys_cases fs parse g p n hn with h | h | h
      · exact hg n h
      · subst h; exact hp
      · unfold compPotential
        rcases fileExists_mem h with hf | hd
        · exact List.mem_append_left _ (List.mem_append_right _ hf)
        · exact List.mem_append_right _ hd)
    (fun n hn => absurd hn (by simp [nodeKeys, Graph.new, adjKeys]))
  intro n hn
  rw [mem_nodes_iff] at hn
  have hk : n ∈ nodeKeys (compRun fs parse root entries).g :=
    List.mem_append.mpr hn
  have hp := hphi n hk
  unfold compPotential at hp
  rcases List.mem_append.mp hp with h | h
  · rcases List.mem_append.mp h with h1 | h2
    · exact hseeds n h1
    · exact hfiles n h2
  · exact hdirs n h

/-- Witness for C10 at the cycle scenario: the node reached through the
JSX edge carries no `pkg:` prefix. -/
theorem c10_component_nodes_local_witness :
    strHasPref "/ws/B.tsx" "pkg:" = false :=
  c10_component_nodes_local fsW parseW "/ws" ["/ws/A.tsx"]
    (by decide) (by decide) (by decide) "/ws/B.tsx" (by decide)
